import Mathlib

/-!
Verification of the CLP IR-stream decoder
(src/components/core/src/ffi/ir_stream/decoding_methods.cpp).

The byte stream is modelled as a list of bytes (Fin 256); the reader is
modelled by passing the remaining stream explicitly.  Fallible operations
return Option or Except values.  The formatting helpers decode_float_var and
decode_integer_var are external pure functions (out of scope for the core)
and are taken as parameters.
-/

set_option maxHeartbeats 1000000

namespace IrStream

/-- A byte of the wire stream. -/
abbrev Byte := Fin 256

/-- Error codes returned by the decoder, mirroring IRErrorCode in the source. -/
inductive IRErrorCode where
  | Success
  | Corrupted_IR
  | Incomplete_IR
  | Decode_Error
  | Eof
deriving DecidableEq, Repr

/-- The two wire variants: eight-byte encoding and four-byte encoding. -/
inductive Variant where
  | eight
  | four
deriving DecidableEq, Repr

namespace cProtocol

/-- Modelled from the spec: protocol_constants.hpp is not under src/. The spec
fixes the tags as a closed, version-fixed set of distinct byte constants; the
concrete values below are representatives. -/
def Eof : Byte := 0x00

/-- Modelled from the spec: dictionary-variable length tag, 1-byte length. -/
def VarStrLenUByte : Byte := 0x11

/-- Modelled from the spec: dictionary-variable length tag, 2-byte length. -/
def VarStrLenUShort : Byte := 0x12

/-- Modelled from the spec: dictionary-variable length tag, signed 4-byte length. -/
def VarStrLenInt : Byte := 0x13

/-- Modelled from the spec: encoded-variable tag of the four-byte variant. -/
def VarFourByteEncoding : Byte := 0x18

/-- Modelled from the spec: encoded-variable tag of the eight-byte variant. -/
def VarEightByteEncoding : Byte := 0x19

/-- Modelled from the spec: logtype length tag, 1-byte length. -/
def LogtypeStrLenUByte : Byte := 0x21

/-- Modelled from the spec: logtype length tag, 2-byte length. -/
def LogtypeStrLenUShort : Byte := 0x22

/-- Modelled from the spec: logtype length tag, signed 4-byte length. -/
def LogtypeStrLenInt : Byte := 0x23

/-- Modelled from the spec: absolute-timestamp tag of the eight-byte variant. -/
def TimestampVal : Byte := 0x30

/-- Modelled from the spec: 1-byte timestamp-delta tag of the four-byte variant. -/
def TimestampDeltaByte : Byte := 0x31

/-- Modelled from the spec: 2-byte timestamp-delta tag of the four-byte variant. -/
def TimestampDeltaShort : Byte := 0x32

/-- Modelled from the spec: 4-byte timestamp-delta tag of the four-byte variant. -/
def TimestampDeltaInt : Byte := 0x33

/-- Modelled from the spec: the magic number length N (two fixed octet strings
of this length open a stream). -/
def MagicNumberLength : Nat := 4

/-- Modelled from the spec: the four-byte-variant magic number. -/
def FourByteEncodingMagicNumber : List Byte := [0xFD, 0x2F, 0xB5, 0x28]

/-- Modelled from the spec: the eight-byte-variant magic number. -/
def EightByteEncodingMagicNumber : List Byte := [0xFD, 0x2F, 0xB5, 0x29]

end cProtocol

namespace VariablePlaceholder

/-- Float variable placeholder byte (spec scenario value 0x11). -/
def Float : Byte := 0x11

/-- Integer variable placeholder byte (spec scenario value 0x12). -/
def Integer : Byte := 0x12

/-- Dictionary variable placeholder byte (spec scenario value 0x13). -/
def Dictionary : Byte := 0x13

end VariablePlaceholder

/-- The escape byte of the logtype template (spec scenario value 0x5C). -/
def cVariablePlaceholderEscapeCharacter : Byte := 0x5C

/-- Interpret a w-byte unsigned value as a signed (two-complement) integer. -/
def toSigned (w : Nat) (v : Nat) : Int :=
  if v < 2 ^ (8 * w - 1) then (v : Int) else (v : Int) - 2 ^ (8 * w)

/-- Big-endian value of a byte list (first byte is most significant). -/
def beVal (bs : List Byte) : Nat :=
  bs.foldl (fun acc b => 256 * acc + b.val) 0

/-- Little-endian value of a byte list (first byte is least significant).
This is the value the reader produces on a little-endian host when it copies
the next bytes of the stream into a machine integer. -/
def leVal (bs : List Byte) : Nat :=
  bs.foldr (fun b acc => b.val + 256 * acc) 0

/-- The w little-endian base-256 digits of a value. -/
def toLEBytes : Nat → Nat → List Nat
  | 0, _ => []
  | w + 1, v => v % 256 :: toLEBytes w (v / 256)

/-- Reassemble a little-endian digit list into a value. -/
def fromLEBytesN (l : List Nat) : Nat :=
  l.foldr (fun b acc => b + 256 * acc) 0

/-- Byte swap of a w-byte value: reverse its base-256 digits.  This models
bswap_16, bswap_32 and bswap_64 from byteswap.hpp uniformly. -/
def bswapVal (w v : Nat) : Nat :=
  fromLEBytesN (toLEBytes w v).reverse

/-- decode_int from the source: read sizeof(integer_t) bytes from the reader
(which yields the little-endian machine value), byte-swap them (identity for
width 1), and interpret the result with the signedness of integer_t.
Returns none when the reader cannot supply enough bytes. -/
def decode_int (w : Nat) (signed : Bool) (s : List Byte) : Option (Int × List Byte) :=
  if w ≤ s.length then
    let value_little_endian := leVal (s.take w)
    let raw := if w = 1 then value_little_endian else bswapVal w value_little_endian
    some (if signed then toSigned w raw else (raw : Int), s.drop w)
  else
    none

/-- ReaderInterface.try_read_string: read exactly n bytes, or fail. -/
def try_read_string (n : Nat) (s : List Byte) : Option (List Byte × List Byte) :=
  if n ≤ s.length then some (s.take n, s.drop n) else none

/-- size_t conversion of a signed 32-bit value, as performed by the implicit
int32_t-to-size_t assignment in the source (64-bit size_t). -/
def size_t_of_int32 (v : Int) : Nat :=
  (v % (2 ^ 64 : Int)).toNat

/-- parse_logtype from the source: dispatch on the length tag, decode the
length in its declared width, then read that many bytes as the logtype. -/
def parse_logtype (encoded_tag : Byte) (s : List Byte) :
    Except IRErrorCode (List Byte × List Byte) :=
  if encoded_tag = cProtocol.LogtypeStrLenUByte then
    match decode_int 1 false s with
    | none => .error .Incomplete_IR
    | some (len, s1) =>
      match try_read_string len.toNat s1 with
      | none => .error .Incomplete_IR
      | some (logtype, s2) => .ok (logtype, s2)
  else if encoded_tag = cProtocol.LogtypeStrLenUShort then
    match decode_int 2 false s with
    | none => .error .Incomplete_IR
    | some (len, s1) =>
      match try_read_string len.toNat s1 with
      | none => .error .Incomplete_IR
      | some (logtype, s2) => .ok (logtype, s2)
  else if encoded_tag = cProtocol.LogtypeStrLenInt then
    match decode_int 4 true s with
    | none => .error .Incomplete_IR
    | some (len, s1) =>
      match try_read_string (size_t_of_int32 len) s1 with
      | none => .error .Incomplete_IR
      | some (logtype, s2) => .ok (logtype, s2)
  else
    .error .Corrupted_IR

/-- parse_dictionary_var from the source, symmetric to parse_logtype. -/
def parse_dictionary_var (encoded_tag : Byte) (s : List Byte) :
    Except IRErrorCode (List Byte × List Byte) :=
  if encoded_tag = cProtocol.VarStrLenUByte then
    match decode_int 1 false s with
    | none => .error .Incomplete_IR
    | some (len, s1) =>
      match try_read_string len.toNat s1 with
      | none => .error .Incomplete_IR
      | some (dict_var, s2) => .ok (dict_var, s2)
  else if encoded_tag = cProtocol.VarStrLenUShort then
    match decode_int 2 false s with
    | none => .error .Incomplete_IR
    | some (len, s1) =>
      match try_read_string len.toNat s1 with
      | none => .error .Incomplete_IR
      | some (dict_var, s2) => .ok (dict_var, s2)
  else if encoded_tag = cProtocol.VarStrLenInt then
    match decode_int 4 true s with
    | none => .error .Incomplete_IR
    | some (len, s1) =>
      match try_read_string (size_t_of_int32 len) s1 with
      | none => .error .Incomplete_IR
      | some (dict_var, s2) => .ok (dict_var, s2)
  else
    .error .Corrupted_IR

/-- parse_timestamp from the source.  The eight-byte variant demands the
absolute-timestamp tag and reads an 8-byte signed integer; the four-byte
variant dispatches on the three delta tags and sign-extends a 1-, 2-, or
4-byte signed delta. -/
def parse_timestamp (v : Variant) (encoded_tag : Byte) (s : List Byte) :
    Except IRErrorCode (Int × List Byte) :=
  match v with
  | .eight =>
    if encoded_tag = cProtocol.TimestampVal then
      match decode_int 8 true s with
      | none => .error .Incomplete_IR
      | some (ts, s1) => .ok (ts, s1)
    else
      .error .Corrupted_IR
  | .four =>
    if encoded_tag = cProtocol.TimestampDeltaByte then
      match decode_int 1 true s with
      | none => .error .Incomplete_IR
      | some (ts, s1) => .ok (ts, s1)
    else if encoded_tag = cProtocol.TimestampDeltaShort then
      match decode_int 2 true s with
      | none => .error .Incomplete_IR
      | some (ts, s1) => .ok (ts, s1)
    else if encoded_tag = cProtocol.TimestampDeltaInt then
      match decode_int 4 true s with
      | none => .error .Incomplete_IR
      | some (ts, s1) => .ok (ts, s1)
    else
      .error .Corrupted_IR

/-- is_variable_tag from the source: some is_encoded_var when the tag is a
variable tag of the given variant, none otherwise. -/
def is_variable_tag (v : Variant) (tag : Byte) : Option Bool :=
  if tag = cProtocol.VarStrLenUByte ∨ tag = cProtocol.VarStrLenUShort
      ∨ tag = cProtocol.VarStrLenInt then
    some false
  else
    match v with
    | .eight => if tag = cProtocol.VarEightByteEncoding then some true else none
    | .four => if tag = cProtocol.VarFourByteEncoding then some true else none

/-- Width in bytes of an encoded variable of the given variant. -/
def varWidth : Variant → Nat
  | .eight => 8
  | .four => 4

/-- The substring logtype[s..p) appended by message.append(logtype, s, p - s). -/
def subStr (l : List Byte) (s p : Nat) : List Byte :=
  (l.drop s).take (p - s)

/-- The loop of decode_message from the source, recursing on cur_pos with the
logtype fixed.  Arguments after the variable lists: cur_pos,
next_static_text_begin_pos, encoded_vars_ix, dictionary_vars_ix, and the
message accumulated so far.  A thrown EncodingException is modelled as none;
the final encoded_vars_ix and dictionary_vars_ix are returned alongside the
message so that variable consumption can be stated. -/
def decode_message_loop (fF fI : Int → List Byte) (logtype : List Byte)
    (encoded_vars : List Int) (dictionary_vars : List (List Byte)) :
    Nat → Nat → Nat → Nat → List Byte → Option (List Byte × Nat × Nat)
  | cur_pos, next_static, ei, di, msg =>
    if hp : cur_pos < logtype.length then
      if logtype.get ⟨cur_pos, hp⟩ = VariablePlaceholder.Float then
        if he : ei < encoded_vars.length then
          decode_message_loop fF fI logtype encoded_vars dictionary_vars
            (cur_pos + 1) (cur_pos + 1) (ei + 1) di
            (msg ++ subStr logtype next_static cur_pos ++ fF (encoded_vars.get ⟨ei, he⟩))
        else
          none
      else if logtype.get ⟨cur_pos, hp⟩ = VariablePlaceholder.Integer then
        if he : ei < encoded_vars.length then
          decode_message_loop fF fI logtype encoded_vars dictionary_vars
            (cur_pos + 1) (cur_pos + 1) (ei + 1) di
            (msg ++ subStr logtype next_static cur_pos ++ fI (encoded_vars.get ⟨ei, he⟩))
        else
          none
      else if logtype.get ⟨cur_pos, hp⟩ = VariablePlaceholder.Dictionary then
        if hd : di < dictionary_vars.length then
          decode_message_loop fF fI logtype encoded_vars dictionary_vars
            (cur_pos + 1) (cur_pos + 1) ei (di + 1)
            (msg ++ subStr logtype next_static cur_pos ++ dictionary_vars.get ⟨di, hd⟩)
        else
          none
      else if logtype.get ⟨cur_pos, hp⟩ = cVariablePlaceholderEscapeCharacter then
        if cur_pos = logtype.length - 1 then
          none
        else
          decode_message_loop fF fI logtype encoded_vars dictionary_vars
            (cur_pos + 2) (cur_pos + 1) ei di
            (msg ++ subStr logtype next_static cur_pos)
      else
        decode_message_loop fF fI logtype encoded_vars dictionary_vars
          (cur_pos + 1) next_static ei di msg
    else
      some
        ((if next_static < logtype.length then msg ++ logtype.drop next_static else msg),
          ei, di)
termination_by cur_pos => logtype.length - cur_pos
decreasing_by
  all_goals omega

/-- decode_message from the source, instrumented with the final variable
indices (the loop starts from position 0 with empty accumulators). -/
def decode_message_core (fF fI : Int → List Byte) (logtype : List Byte)
    (encoded_vars : List Int) (dictionary_vars : List (List Byte)) :
    Option (List Byte × Nat × Nat) :=
  decode_message_loop fF fI logtype encoded_vars dictionary_vars 0 0 0 0 []

/-- decode_message from the source: just the rendered message. -/
def decode_message (fF fI : Int → List Byte) (logtype : List Byte)
    (encoded_vars : List Int) (dictionary_vars : List (List Byte)) :
    Option (List Byte) :=
  (decode_message_core fF fI logtype encoded_vars dictionary_vars).map (fun r => r.1)

/-- If decode_int succeeds, the remaining stream is no longer than the input. -/
theorem decode_int_length_le {w : Nat} {signed : Bool} {s : List Byte} {x : Int}
    {s1 : List Byte} (h : decode_int w signed s = some (x, s1)) :
    s1.length ≤ s.length := by
  simp only [decode_int] at h
  split at h
  · simp only [Option.some.injEq, Prod.mk.injEq] at h
    have hlen := congrArg List.length h.2
    simp only [List.length_drop] at hlen
    omega
  · exact Option.noConfusion h

/-- If try_read_string succeeds, the remaining stream is no longer than the input. -/
theorem try_read_string_length_le {n : Nat} {s out s1 : List Byte}
    (h : try_read_string n s = some (out, s1)) : s1.length ≤ s.length := by
  simp only [try_read_string] at h
  split at h
  · simp only [Option.some.injEq, Prod.mk.injEq] at h
    have hlen := congrArg List.length h.2
    simp only [List.length_drop] at hlen
    omega
  · exact Option.noConfusion h

/-- If parse_dictionary_var succeeds, the remaining stream is no longer than
the input stream (needed for termination of the variable-reading loop). -/
theorem parse_dictionary_var_length_le {tag : Byte} {s d s1 : List Byte}
    (h : parse_dictionary_var tag s = .ok (d, s1)) : s1.length ≤ s.length := by
  simp only [parse_dictionary_var] at h
  repeat' split at h
  any_goals exact Except.noConfusion h
  all_goals
  · rename_i xa len sa hda xb out sb htr
    simp only [Except.ok.injEq, Prod.mk.injEq] at h
    have h1 := decode_int_length_le hda
    have h2 := try_read_string_length_le htr
    have h3 := congrArg List.length h.2
    omega

/-- The variable-reading loop of generic_decode_next_message: tag holds the
most recently read tag byte; while it is a variable tag, read the variable
payload and the next tag.  Returns the first non-variable tag, the stream
after it, and the collected variable lists. -/
def read_vars (v : Variant) (tag : Byte) (s : List Byte)
    (encoded_vars : List Int) (dict_vars : List (List Byte)) :
    Except IRErrorCode (Byte × List Byte × List Int × List (List Byte)) :=
  match hv : is_variable_tag v tag with
  | none => .ok (tag, s, encoded_vars, dict_vars)
  | some true =>
    match hd : decode_int (varWidth v) true s with
    | none => .error .Incomplete_IR
    | some (x, s1) =>
      match hs1 : s1 with
      | [] => .error .Incomplete_IR
      | t :: s2 => read_vars v t s2 (encoded_vars ++ [x]) dict_vars
  | some false =>
    match hp : parse_dictionary_var tag s with
    | .error e => .error e
    | .ok (d, s1) =>
      match hs1 : s1 with
      | [] => .error .Incomplete_IR
      | t :: s2 => read_vars v t s2 encoded_vars (dict_vars ++ [d])
termination_by s.length
decreasing_by
  · have hle := decode_int_length_le hd
    first
    | (simp only [List.length_cons] at hle; omega)
    | (rw [hs1] at hle; simp only [List.length_cons] at hle; omega)
  · have hle := parse_dictionary_var_length_le hp
    first
    | (simp only [List.length_cons] at hle; omega)
    | (rw [hs1] at hle; simp only [List.length_cons] at hle; omega)

/-- The framing phase of generic_decode_next_message, starting after the first
tag byte has been read and found different from the EOF tag: read variables,
then the logtype, then the timestamp tag and payload. -/
def assemble_frame (v : Variant) (tag : Byte) (s : List Byte) :
    Except IRErrorCode ((List Byte × List Int × List (List Byte) × Int) × List Byte) :=
  match read_vars v tag s [] [] with
  | .error e => .error e
  | .ok (t, s1, encoded_vars, dict_vars) =>
    match parse_logtype t s1 with
    | .error e => .error e
    | .ok (logtype, s2) =>
      match s2 with
      | [] => .error .Incomplete_IR
      | ts_tag :: s3 =>
        match parse_timestamp v ts_tag s3 with
        | .error e => .error e
        | .ok (ts, s4) => .ok ((logtype, encoded_vars, dict_vars, ts), s4)

/-- generic_decode_next_message from the source.  Result: the error code, the
decoded (message, timestamp) on success, and the remaining stream where it is
defined (after the EOF tag for Eof, after the frame for Success; none on the
error paths, where the reader is left at an implementation-defined position). -/
def generic_decode_next_message (v : Variant) (fF fI : Int → List Byte)
    (s : List Byte) : IRErrorCode × Option (List Byte × Int) × Option (List Byte) :=
  match s with
  | [] => (.Incomplete_IR, none, none)
  | tag :: s1 =>
    if tag = cProtocol.Eof then
      (.Eof, none, some s1)
    else
      match assemble_frame v tag s1 with
      | .error e => (e, none, none)
      | .ok ((logtype, encoded_vars, dict_vars, ts), rest) =>
        match decode_message fF fI logtype encoded_vars dict_vars with
        | none => (.Decode_Error, none, none)
        | some m => (.Success, some (m, ts), some rest)

namespace four_byte_encoding

/-- four_byte_encoding::decode_next_message from the source. -/
def decode_next_message (fF fI : Int → List Byte) (s : List Byte) :
    IRErrorCode × Option (List Byte × Int) × Option (List Byte) :=
  generic_decode_next_message Variant.four fF fI s

end four_byte_encoding

namespace eight_byte_encoding

/-- eight_byte_encoding::decode_next_message from the source. -/
def decode_next_message (fF fI : Int → List Byte) (s : List Byte) :
    IRErrorCode × Option (List Byte × Int) × Option (List Byte) :=
  generic_decode_next_message Variant.eight fF fI s

end eight_byte_encoding

/-- get_encoding_type from the source: read the magic number and compare it
against the two variant magic numbers. -/
def get_encoding_type (s : List Byte) : IRErrorCode × Option Bool :=
  if cProtocol.MagicNumberLength ≤ s.length then
    let buffer := s.take cProtocol.MagicNumberLength
    if buffer = cProtocol.FourByteEncodingMagicNumber then (.Success, some true)
    else if buffer = cProtocol.EightByteEncodingMagicNumber then (.Success, some false)
    else (.Corrupted_IR, none)
  else
    (.Incomplete_IR, none)

/-! ## Structural helpers used to reason about the renderer -/

/-- Structural restatement of the renderer: one pass over the remaining
logtype, consuming variables from the front of the lists and emitting output
directly.  Returns the message together with the number of encoded and
dictionary variables consumed.  It is proved below to agree with
decode_message_loop. -/
def dms (fF fI : Int → List Byte) :
    List Byte → List Int → List (List Byte) → Option (List Byte × Nat × Nat)
  | [], _, _ => some ([], 0, 0)
  | c :: rest, encoded_vars, dict_vars =>
    if c = VariablePlaceholder.Float then
      match encoded_vars with
      | [] => none
      | e :: evs =>
        (dms fF fI rest evs dict_vars).map (fun r => (fF e ++ r.1, r.2.1 + 1, r.2.2))
    else if c = VariablePlaceholder.Integer then
      match encoded_vars with
      | [] => none
      | e :: evs =>
        (dms fF fI rest evs dict_vars).map (fun r => (fI e ++ r.1, r.2.1 + 1, r.2.2))
    else if c = VariablePlaceholder.Dictionary then
      match dict_vars with
      | [] => none
      | d :: dvs =>
        (dms fF fI rest encoded_vars dvs).map (fun r => (d ++ r.1, r.2.1, r.2.2 + 1))
    else if c = cVariablePlaceholderEscapeCharacter then
      match rest with
      | [] => none
      | b :: rest2 =>
        (dms fF fI rest2 encoded_vars dict_vars).map (fun r => (b :: r.1, r.2.1, r.2.2))
    else
      (dms fF fI rest encoded_vars dict_vars).map (fun r => (c :: r.1, r.2.1, r.2.2))

/-- Number of unescaped Float/Integer placeholders and of unescaped Dictionary
placeholders in a logtype; none when the logtype ends in an unescaped escape
byte. -/
def phCounts : List Byte → Option (Nat × Nat)
  | [] => some (0, 0)
  | c :: rest =>
    if c = VariablePlaceholder.Float then
      (phCounts rest).map (fun r => (r.1 + 1, r.2))
    else if c = VariablePlaceholder.Integer then
      (phCounts rest).map (fun r => (r.1 + 1, r.2))
    else if c = VariablePlaceholder.Dictionary then
      (phCounts rest).map (fun r => (r.1, r.2 + 1))
    else if c = cVariablePlaceholderEscapeCharacter then
      match rest with
      | [] => none
      | _ :: rest2 => phCounts rest2
    else
      phCounts rest

/-- The renderer fails (raises EncodingException) on (L, E, D) exactly when L
has a trailing unescaped escape byte, or needs more encoded or dictionary
variables than are available. -/
def RenderFails (logtype : List Byte) (encoded_vars : List Int)
    (dict_vars : List (List Byte)) : Prop :=
  phCounts logtype = none ∨
    ∃ a b, phCounts logtype = some (a, b) ∧
      (encoded_vars.length < a ∨ dict_vars.length < b)

/-- A unit of a fully escaped logtype: either an ordinary byte, or an escape
byte followed by one escaped byte. -/
inductive EscUnit where
  | ord (b : Byte)
  | esc (b : Byte)
deriving DecidableEq, Repr

/-- Wire bytes of a unit. -/
def EscUnit.bytes : EscUnit → List Byte
  | .ord b => [b]
  | .esc b => [cVariablePlaceholderEscapeCharacter, b]

/-- Rendered bytes of a unit: the leading escape byte is removed. -/
def EscUnit.out : EscUnit → List Byte
  | .ord b => [b]
  | .esc b => [b]

/-- Well-formedness of a unit: an ordinary byte is neither a placeholder nor
the escape byte; an escaped byte is a placeholder or the escape byte. -/
def EscUnit.ok : EscUnit → Prop
  | .ord b =>
    b ≠ VariablePlaceholder.Float ∧ b ≠ VariablePlaceholder.Integer ∧
      b ≠ VariablePlaceholder.Dictionary ∧ b ≠ cVariablePlaceholderEscapeCharacter
  | .esc b =>
    b = VariablePlaceholder.Float ∨ b = VariablePlaceholder.Integer ∨
      b = VariablePlaceholder.Dictionary ∨ b = cVariablePlaceholderEscapeCharacter

instance (u : EscUnit) : Decidable u.ok := by
  cases u <;> (simp only [EscUnit.ok]; infer_instance)

/-- Concatenation of the wire bytes of a unit list. -/
def flatBytes : List EscUnit → List Byte
  | [] => []
  | u :: us => u.bytes ++ flatBytes us

/-- Concatenation of the rendered bytes of a unit list. -/
def flatOut : List EscUnit → List Byte
  | [] => []
  | u :: us => u.out ++ flatOut us

/-! ## Endianness lemmas -/

theorem leVal_cons (b : Byte) (bs : List Byte) :
    leVal (b :: bs) = b.val + 256 * leVal bs := rfl

theorem toLEBytes_leVal (bs : List Byte) :
    toLEBytes bs.length (leVal bs) = bs.map Fin.val := by
  induction bs with
  | nil => rfl
  | cons b rest ih =>
    have hb := b.isLt
    have h1 : leVal (b :: rest) % 256 = b.val := by rw [leVal_cons]; omega
    have h2 : leVal (b :: rest) / 256 = leVal rest := by rw [leVal_cons]; omega
    simp only [List.length_cons, toLEBytes, h1, h2, List.map_cons, ih]

theorem beVal_foldl_acc (acc : Nat) (bs : List Byte) :
    bs.foldl (fun a b => 256 * a + b.val) acc = acc * 256 ^ bs.length + beVal bs := by
  induction bs generalizing acc with
  | nil => simp [beVal]
  | cons b rest ih =>
    simp only [List.foldl_cons, List.length_cons, beVal] at *
    rw [ih (256 * acc + b.val), ih (256 * 0 + b.val)]
    ring

theorem beVal_cons (b : Byte) (bs : List Byte) :
    beVal (b :: bs) = b.val * 256 ^ bs.length + beVal bs := by
  have h := beVal_foldl_acc (256 * 0 + b.val) bs
  simp only [beVal, List.foldl_cons]
  rw [h]
  ring_nf
  simp only [beVal]

theorem fromLEBytesN_append (l : List Nat) (x : Nat) :
    fromLEBytesN (l ++ [x]) = fromLEBytesN l + 256 ^ l.length * x := by
  induction l with
  | nil => simp [fromLEBytesN]
  | cons a l ih =>
    simp only [List.cons_append, fromLEBytesN, List.foldr_cons, List.length_cons] at *
    rw [ih]
    ring

theorem fromLEBytesN_reverse_map (bs : List Byte) :
    fromLEBytesN (bs.map Fin.val).reverse = beVal bs := by
  induction bs with
  | nil => rfl
  | cons b rest ih =>
    simp only [List.map_cons, List.reverse_cons, fromLEBytesN_append, ih,
      List.length_reverse, List.length_map, beVal_cons]
    ring

theorem bswap_leVal (bs : List Byte) : bswapVal bs.length (leVal bs) = beVal bs := by
  unfold bswapVal
  rw [toLEBytes_leVal, fromLEBytesN_reverse_map]

theorem beVal_eq_sum (bs : List Byte) :
    beVal bs =
      ∑ i ∈ Finset.range bs.length, (bs.getD i 0).val * 256 ^ (bs.length - 1 - i) := by
  induction bs with
  | nil => simp [beVal]
  | cons b rest ih =>
    rw [List.length_cons, Finset.sum_range_succ', beVal_cons, ih]
    simp only [List.getD_cons_succ, List.getD_cons_zero]
    have he : ∀ i : Nat, rest.length + 1 - 1 - (i + 1) = rest.length - 1 - i := by omega
    have h0 : rest.length + 1 - 1 - 0 = rest.length := by omega
    simp only [he, h0]
    ring

/-- Evaluation of decode_int on a stream that holds at least w bytes: the
little-endian read followed by the byte swap yields the big-endian value. -/
theorem decode_int_eval (signed : Bool) (bs rest : List Byte) :
    decode_int bs.length signed (bs ++ rest) =
      some ((if signed then toSigned bs.length (beVal bs) else (beVal bs : Int)), rest) := by
  have hle : bs.length ≤ (bs ++ rest).length := by simp
  have hraw : (if bs.length = 1 then leVal bs else bswapVal bs.length (leVal bs)) = beVal bs := by
    split
    · rename_i h1
      match bs, h1 with
      | [b], _ => simp [leVal, beVal]
    · exact bswap_leVal bs
  simp only [decode_int, if_pos hle, List.take_left, List.drop_left]
  rw [hraw]

/-- decode_int fails exactly when the reader cannot supply w bytes. -/
theorem decode_int_none_iff (w : Nat) (signed : Bool) (s : List Byte) :
    decode_int w signed s = none ↔ s.length < w := by
  simp only [decode_int]
  split
  · rename_i h
    constructor
    · intro hc
      exact Option.noConfusion hc
    · intro hc
      omega
  · rename_i h
    constructor
    · intro _
      omega
    · intro _
      rfl

/-! ## Equivalence of the renderer loop with its structural restatement -/

theorem subStr_self (L : List Byte) (p : Nat) : subStr L p p = [] := by
  simp [subStr]

theorem subStr_all (L : List Byte) {s p : Nat} (h : L.length ≤ p) :
    subStr L s p = L.drop s := by
  apply List.take_of_length_le
  simp only [List.length_drop]
  omega

theorem subStr_succ (L : List Byte) {s p : Nat} (hsp : s ≤ p) (hp : p < L.length) :
    subStr L s (p + 1) = subStr L s p ++ [L.get ⟨p, hp⟩] := by
  unfold subStr
  have h1 : p + 1 - s = (p - s) + 1 := by omega
  rw [h1, List.take_succ]
  congr 1
  rw [List.getElem?_drop]
  have h2 : s + (p - s) = p := by omega
  rw [h2, List.getElem?_eq_getElem hp]
  simp

theorem subStr_single (L : List Byte) {p : Nat} (hp : p < L.length) :
    subStr L p (p + 1) = [L.get ⟨p, hp⟩] := by
  have h := subStr_succ L (Nat.le_refl p) hp
  rw [subStr_self] at h
  simpa using h

theorem dms_cons_float (fF fI : Int → List Byte) (rest : List Byte) (e : Int)
    (evs : List Int) (D : List (List Byte)) :
    dms fF fI (VariablePlaceholder.Float :: rest) (e :: evs) D =
      (dms fF fI rest evs D).map (fun r => (fF e ++ r.1, r.2.1 + 1, r.2.2)) := by
  rw [dms.eq_def]
  simp only []
  repeat' first
    | rw [if_neg (by decide)]
    | simp only [if_true]

theorem dms_cons_float_nil (fF fI : Int → List Byte) (rest : List Byte)
    (D : List (List Byte)) :
    dms fF fI (VariablePlaceholder.Float :: rest) [] D = none := by
  rw [dms.eq_def]
  simp only []
  repeat' first
    | rw [if_neg (by decide)]
    | simp only [if_true]

theorem dms_cons_integer (fF fI : Int → List Byte) (rest : List Byte) (e : Int)
    (evs : List Int) (D : List (List Byte)) :
    dms fF fI (VariablePlaceholder.Integer :: rest) (e :: evs) D =
      (dms fF fI rest evs D).map (fun r => (fI e ++ r.1, r.2.1 + 1, r.2.2)) := by
  rw [dms.eq_def]
  simp only []
  repeat' first
    | rw [if_neg (by decide)]
    | simp only [if_true]

theorem dms_cons_integer_nil (fF fI : Int → List Byte) (rest : List Byte)
    (D : List (List Byte)) :
    dms fF fI (VariablePlaceholder.Integer :: rest) [] D = none := by
  rw [dms.eq_def]
  simp only []
  repeat' first
    | rw [if_neg (by decide)]
    | simp only [if_true]

theorem dms_cons_dict (fF fI : Int → List Byte) (rest : List Byte)
    (E : List Int) (d : List Byte) (dvs : List (List Byte)) :
    dms fF fI (VariablePlaceholder.Dictionary :: rest) E (d :: dvs) =
      (dms fF fI rest E dvs).map (fun r => (d ++ r.1, r.2.1, r.2.2 + 1)) := by
  rw [dms.eq_def]
  simp only []
  repeat' first
    | rw [if_neg (by decide)]
    | simp only [if_true]

theorem dms_cons_dict_nil (fF fI : Int → List Byte) (rest : List Byte)
    (E : List Int) :
    dms fF fI (VariablePlaceholder.Dictionary :: rest) E [] = none := by
  rw [dms.eq_def]
  simp only []
  repeat' first
    | rw [if_neg (by decide)]
    | simp only [if_true]

theorem dms_cons_escape (fF fI : Int → List Byte) (b : Byte) (rest2 : List Byte)
    (E : List Int) (D : List (List Byte)) :
    dms fF fI (cVariablePlaceholderEscapeCharacter :: b :: rest2) E D =
      (dms fF fI rest2 E D).map (fun r => (b :: r.1, r.2.1, r.2.2)) := by
  rw [dms.eq_def]
  simp only []
  repeat' first
    | rw [if_neg (by decide)]
    | simp only [if_true]

theorem dms_cons_escape_nil (fF fI : Int → List Byte)
    (E : List Int) (D : List (List Byte)) :
    dms fF fI [cVariablePlaceholderEscapeCharacter] E D = none := by
  rw [dms.eq_def]
  simp only []
  repeat' first
    | rw [if_neg (by decide)]
    | simp only [if_true]

theorem dms_cons_default (fF fI : Int → List Byte) {c : Byte} (rest : List Byte)
    (E : List Int) (D : List (List Byte))
    (h1 : c ≠ VariablePlaceholder.Float) (h2 : c ≠ VariablePlaceholder.Integer)
    (h3 : c ≠ VariablePlaceholder.Dictionary)
    (h4 : c ≠ cVariablePlaceholderEscapeCharacter) :
    dms fF fI (c :: rest) E D =
      (dms fF fI rest E D).map (fun r => (c :: r.1, r.2.1, r.2.2)) := by
  rw [dms.eq_def]
  simp only []
  rw [if_neg h1, if_neg h2, if_neg h3, if_neg h4]

theorem decode_message_loop_eq_dms (fF fI : Int → List Byte) (L : List Byte)
    (E : List Int) (D : List (List Byte)) :
    ∀ p s ei di msg, s ≤ p →
      decode_message_loop fF fI L E D p s ei di msg =
        (dms fF fI (L.drop p) (E.drop ei) (D.drop di)).map
          (fun r => (msg ++ subStr L s p ++ r.1, ei + r.2.1, di + r.2.2)) := by
  suffices main : ∀ n p s ei di msg, L.length - p ≤ n → s ≤ p →
      decode_message_loop fF fI L E D p s ei di msg =
        (dms fF fI (L.drop p) (E.drop ei) (D.drop di)).map
          (fun r => (msg ++ subStr L s p ++ r.1, ei + r.2.1, di + r.2.2)) by
    intro p s ei di msg hsp
    exact main (L.length - p) p s ei di msg (Nat.le_refl _) hsp
  have base : ∀ p s ei di msg, L.length ≤ p → s ≤ p →
      decode_message_loop fF fI L E D p s ei di msg =
        (dms fF fI (L.drop p) (E.drop ei) (D.drop di)).map
          (fun r => (msg ++ subStr L s p ++ r.1, ei + r.2.1, di + r.2.2)) := by
    intro p s ei di msg hp hsp
    rw [decode_message_loop, dif_neg (by omega), List.drop_eq_nil_of_le hp,
      subStr_all L hp]
    simp only [dms, Option.map_some']
    by_cases hs : s < L.length
    · rw [if_pos hs]
      simp
    · rw [if_neg hs, List.drop_eq_nil_of_le (show L.length ≤ s by omega)]
      simp
  intro n
  induction n with
  | zero =>
    intro p s ei di msg hn hsp
    exact base p s ei di msg (by omega) hsp
  | succ n ih =>
    intro p s ei di msg hn hsp
    by_cases hp : p < L.length
    case neg =>
      exact base p s ei di msg (by omega) hsp
    case pos =>
      rw [decode_message_loop, dif_pos hp]
      simp only [List.get_eq_getElem]
      rw [List.drop_eq_getElem_cons hp]
      by_cases hcf : L[p] = VariablePlaceholder.Float
      · rw [if_pos hcf, hcf]
        by_cases he : ei < E.length
        · rw [dif_pos he, List.drop_eq_getElem_cons he, dms_cons_float,
            ih (p + 1) (p + 1) (ei + 1) di _ (by omega) (Nat.le_refl _)]
          cases hdms : dms fF fI (L.drop (p + 1)) (E.drop (ei + 1)) (D.drop di) with
          | none => rfl
          | some r =>
            simp only [Option.map_some', Option.some.injEq, Prod.mk.injEq, subStr_self,
              List.append_nil, List.nil_append, List.append_assoc, true_and, and_true]
            try trivial
            try omega
        · rw [dif_neg he, @List.drop_eq_nil_of_le _ E ei (by omega), dms_cons_float_nil]
          rfl
      · by_cases hci : L[p] = VariablePlaceholder.Integer
        · rw [if_neg hcf, if_pos hci, hci]
          by_cases he : ei < E.length
          · rw [dif_pos he, List.drop_eq_getElem_cons he, dms_cons_integer,
              ih (p + 1) (p + 1) (ei + 1) di _ (by omega) (Nat.le_refl _)]
            cases hdms : dms fF fI (L.drop (p + 1)) (E.drop (ei + 1)) (D.drop di) with
            | none => rfl
            | some r =>
              simp only [Option.map_some', Option.some.injEq, Prod.mk.injEq, subStr_self,
                List.append_nil, List.nil_append, List.append_assoc, true_and, and_true]
              try trivial
              try omega
          · rw [dif_neg he, @List.drop_eq_nil_of_le _ E ei (by omega), dms_cons_integer_nil]
            rfl
        · by_cases hcd : L[p] = VariablePlaceholder.Dictionary
          · rw [if_neg hcf, if_neg hci, if_pos hcd, hcd]
            by_cases hd : di < D.length
            · rw [dif_pos hd, List.drop_eq_getElem_cons hd, dms_cons_dict,
                ih (p + 1) (p + 1) ei (di + 1) _ (by omega) (Nat.le_refl _)]
              cases hdms : dms fF fI (L.drop (p + 1)) (E.drop ei) (D.drop (di + 1)) with
              | none => rfl
              | some r =>
                simp only [Option.map_some', Option.some.injEq, Prod.mk.injEq, subStr_self,
                  List.append_nil, List.nil_append, List.append_assoc, true_and, and_true]
                try trivial
                try omega
            · rw [dif_neg hd, @List.drop_eq_nil_of_le _ D di (by omega), dms_cons_dict_nil]
              rfl
          · by_cases hce : L[p] = cVariablePlaceholderEscapeCharacter
            · rw [if_neg hcf, if_neg hci, if_neg hcd, if_pos hce, hce]
              by_cases hlast : p = L.length - 1
              · rw [if_pos hlast,
                  @List.drop_eq_nil_of_le _ L (p + 1) (by omega), dms_cons_escape_nil]
                rfl
              · have hp1 : p + 1 < L.length := by omega
                rw [if_neg hlast, List.drop_eq_getElem_cons hp1, dms_cons_escape,
                  ih (p + 2) (p + 1) ei di _ (by omega) (by omega)]
                cases hdms : dms fF fI (L.drop (p + 2)) (E.drop ei) (D.drop di) with
                | none => rfl
                | some r =>
                  have hsub : subStr L (p + 1) (p + 2) = [L[p + 1]] := by
                    have h := subStr_single L hp1
                    simpa using h
                  simp only [Option.map_some', Option.some.injEq, Prod.mk.injEq, hsub,
                    List.singleton_append, List.cons_append, List.append_assoc, true_and, and_true]
                  try trivial
                  try omega
            · rw [if_neg hcf, if_neg hci, if_neg hcd, if_neg hce,
                dms_cons_default fF fI _ _ _ hcf hci hcd hce,
                ih (p + 1) s ei di msg (by omega) (by omega)]
              cases hdms : dms fF fI (L.drop (p + 1)) (E.drop ei) (D.drop di) with
              | none => rfl
              | some r =>
                have hsub : subStr L s (p + 1) = subStr L s p ++ [L[p]] := by
                  have h := subStr_succ L hsp hp
                  simpa using h
                simp only [Option.map_some', Option.some.injEq, Prod.mk.injEq, hsub,
                  List.singleton_append, List.cons_append, List.append_assoc, true_and, and_true]
                try trivial
                try omega

theorem dms_nil (fF fI : Int → List Byte) (E : List Int) (D : List (List Byte)) :
    dms fF fI [] E D = some ([], 0, 0) := by
  rw [dms.eq_def]

theorem phCounts_nil : phCounts [] = some (0, 0) := by
  rw [phCounts.eq_def]

theorem phCounts_cons_float (rest : List Byte) :
    phCounts (VariablePlaceholder.Float :: rest) =
      (phCounts rest).map (fun r => (r.1 + 1, r.2)) := by
  rw [phCounts.eq_def]
  simp only []
  repeat' first
    | rw [if_neg (by decide)]
    | simp only [if_true]

theorem phCounts_cons_integer (rest : List Byte) :
    phCounts (VariablePlaceholder.Integer :: rest) =
      (phCounts rest).map (fun r => (r.1 + 1, r.2)) := by
  rw [phCounts.eq_def]
  simp only []
  repeat' first
    | rw [if_neg (by decide)]
    | simp only [if_true]

theorem phCounts_cons_dict (rest : List Byte) :
    phCounts (VariablePlaceholder.Dictionary :: rest) =
      (phCounts rest).map (fun r => (r.1, r.2 + 1)) := by
  rw [phCounts.eq_def]
  simp only []
  repeat' first
    | rw [if_neg (by decide)]
    | simp only [if_true]

theorem phCounts_cons_escape (b : Byte) (rest2 : List Byte) :
    phCounts (cVariablePlaceholderEscapeCharacter :: b :: rest2) = phCounts rest2 := by
  rw [phCounts.eq_def]
  simp only []
  repeat' first
    | rw [if_neg (by decide)]
    | simp only [if_true]

theorem phCounts_escape_nil :
    phCounts [cVariablePlaceholderEscapeCharacter] = none := by
  rw [phCounts.eq_def]
  simp only []
  repeat' first
    | rw [if_neg (by decide)]
    | simp only [if_true]

theorem phCounts_cons_default {c : Byte} (rest : List Byte)
    (h1 : c ≠ VariablePlaceholder.Float) (h2 : c ≠ VariablePlaceholder.Integer)
    (h3 : c ≠ VariablePlaceholder.Dictionary)
    (h4 : c ≠ cVariablePlaceholderEscapeCharacter) :
    phCounts (c :: rest) = phCounts rest := by
  rw [phCounts.eq_def]
  simp only []
  rw [if_neg h1, if_neg h2, if_neg h3, if_neg h4]

/-- A successful render consumes exactly the unescaped placeholder counts of
the logtype, and they are bounded by the list lengths. -/
theorem dms_some_counts (fF fI : Int → List Byte) :
    ∀ (L : List Byte) (E : List Int) (D : List (List Byte)) (m : List Byte) (a b : Nat),
      dms fF fI L E D = some (m, a, b) →
      phCounts L = some (a, b) ∧ a ≤ E.length ∧ b ≤ D.length := by
  intro L E D
  induction L, E, D using dms.induct fF fI with
  | case1 E D =>
    intro m a b h
    rw [dms_nil] at h
    simp only [Option.some.injEq, Prod.mk.injEq] at h
    obtain ⟨-, ha, hb⟩ := h
    rw [phCounts_nil]
    simp [← ha, ← hb]
  | case2 rest D =>
    intro m a b h
    rw [dms_cons_float_nil] at h
    exact Option.noConfusion h
  | case3 rest D e evs ih =>
    intro m a b h
    rw [dms_cons_float] at h
    cases hr : dms fF fI rest evs D with
    | none =>
      rw [hr] at h
      exact Option.noConfusion h
    | some r =>
      obtain ⟨m1, a1, b1⟩ := r
      rw [hr] at h
      simp only [Option.map_some', Option.some.injEq, Prod.mk.injEq] at h
      obtain ⟨-, ha, hb⟩ := h
      obtain ⟨hc, hae, hbd⟩ := ih m1 a1 b1 hr
      rw [phCounts_cons_float, hc]
      simp only [Option.map_some', Option.some.injEq, Prod.mk.injEq, List.length_cons]
      omega
  | case4 rest D hne1 =>
    intro m a b h
    rw [dms_cons_integer_nil] at h
    exact Option.noConfusion h
  | case5 rest D e evs hne1 ih =>
    intro m a b h
    rw [dms_cons_integer] at h
    cases hr : dms fF fI rest evs D with
    | none =>
      rw [hr] at h
      exact Option.noConfusion h
    | some r =>
      obtain ⟨m1, a1, b1⟩ := r
      rw [hr] at h
      simp only [Option.map_some', Option.some.injEq, Prod.mk.injEq] at h
      obtain ⟨-, ha, hb⟩ := h
      obtain ⟨hc, hae, hbd⟩ := ih m1 a1 b1 hr
      rw [phCounts_cons_integer, hc]
      simp only [Option.map_some', Option.some.injEq, Prod.mk.injEq, List.length_cons]
      omega
  | case6 rest E hne1 hne2 =>
    intro m a b h
    rw [dms_cons_dict_nil] at h
    exact Option.noConfusion h
  | case7 rest E d dvs hne1 hne2 ih =>
    intro m a b h
    rw [dms_cons_dict] at h
    cases hr : dms fF fI rest E dvs with
    | none =>
      rw [hr] at h
      exact Option.noConfusion h
    | some r =>
      obtain ⟨m1, a1, b1⟩ := r
      rw [hr] at h
      simp only [Option.map_some', Option.some.injEq, Prod.mk.injEq] at h
      obtain ⟨-, ha, hb⟩ := h
      obtain ⟨hc, hae, hbd⟩ := ih m1 a1 b1 hr
      rw [phCounts_cons_dict, hc]
      simp only [Option.map_some', Option.some.injEq, Prod.mk.injEq, List.length_cons]
      omega
  | case8 E D hne1 hne2 hne3 =>
    intro m a b h
    rw [dms_cons_escape_nil] at h
    exact Option.noConfusion h
  | case9 E D b2 rest2 hne1 hne2 hne3 ih =>
    intro m a b h
    rw [dms_cons_escape] at h
    cases hr : dms fF fI rest2 E D with
    | none =>
      rw [hr] at h
      exact Option.noConfusion h
    | some r =>
      obtain ⟨m1, a1, b1⟩ := r
      rw [hr] at h
      simp only [Option.map_some', Option.some.injEq, Prod.mk.injEq] at h
      obtain ⟨-, ha, hb⟩ := h
      obtain ⟨hc, hae, hbd⟩ := ih m1 a1 b1 hr
      rw [phCounts_cons_escape, hc]
      simp only [Option.some.injEq, Prod.mk.injEq]
      omega
  | case10 c rest E D h1 h2 h3 h4 ih =>
    intro m a b h
    rw [dms_cons_default fF fI rest E D h1 h2 h3 h4] at h
    cases hr : dms fF fI rest E D with
    | none =>
      rw [hr] at h
      exact Option.noConfusion h
    | some r =>
      obtain ⟨m1, a1, b1⟩ := r
      rw [hr] at h
      simp only [Option.map_some', Option.some.injEq, Prod.mk.injEq] at h
      obtain ⟨-, ha, hb⟩ := h
      obtain ⟨hc, hae, hbd⟩ := ih m1 a1 b1 hr
      rw [phCounts_cons_default rest h1 h2 h3 h4, hc]
      simp only [Option.some.injEq, Prod.mk.injEq]
      omega

/-- If the logtype has no trailing escape and both variable lists are long
enough, the render succeeds, consuming exactly the placeholder counts. -/
theorem dms_of_counts (fF fI : Int → List Byte) :
    ∀ (L : List Byte) (E : List Int) (D : List (List Byte)) (a b : Nat),
      phCounts L = some (a, b) → a ≤ E.length → b ≤ D.length →
      ∃ m, dms fF fI L E D = some (m, a, b) := by
  intro L E D
  induction L, E, D using dms.induct fF fI with
  | case1 E D =>
    intro a b hc ha hb
    rw [phCounts_nil] at hc
    simp only [Option.some.injEq, Prod.mk.injEq] at hc
    obtain ⟨ha0, hb0⟩ := hc
    subst ha0
    subst hb0
    exact ⟨[], dms_nil fF fI E D⟩
  | case2 rest D =>
    intro a b hc ha hb
    rw [phCounts_cons_float] at hc
    cases hr : phCounts rest with
    | none =>
      rw [hr] at hc
      exact Option.noConfusion hc
    | some r =>
      rw [hr] at hc
      simp only [Option.map_some', Option.some.injEq, Prod.mk.injEq] at hc
      simp only [List.length_nil] at ha
      omega
  | case3 rest D e evs ih =>
    intro a b hc ha hb
    rw [phCounts_cons_float] at hc
    cases hr : phCounts rest with
    | none =>
      rw [hr] at hc
      exact Option.noConfusion hc
    | some r =>
      obtain ⟨a1, b1⟩ := r
      rw [hr] at hc
      simp only [Option.map_some', Option.some.injEq, Prod.mk.injEq] at hc
      obtain ⟨ha1, hb1⟩ := hc
      simp only [List.length_cons] at ha
      obtain ⟨m, hm⟩ := ih a1 b1 hr (by omega) (by omega)
      refine ⟨fF e ++ m, ?_⟩
      rw [dms_cons_float, hm]
      simp only [Option.map_some', Option.some.injEq, Prod.mk.injEq]
      exact ⟨trivial, by omega, by omega⟩
  | case4 rest D hne1 =>
    intro a b hc ha hb
    rw [phCounts_cons_integer] at hc
    cases hr : phCounts rest with
    | none =>
      rw [hr] at hc
      exact Option.noConfusion hc
    | some r =>
      rw [hr] at hc
      simp only [Option.map_some', Option.some.injEq, Prod.mk.injEq] at hc
      simp only [List.length_nil] at ha
      omega
  | case5 rest D e evs hne1 ih =>
    intro a b hc ha hb
    rw [phCounts_cons_integer] at hc
    cases hr : phCounts rest with
    | none =>
      rw [hr] at hc
      exact Option.noConfusion hc
    | some r =>
      obtain ⟨a1, b1⟩ := r
      rw [hr] at hc
      simp only [Option.map_some', Option.some.injEq, Prod.mk.injEq] at hc
      obtain ⟨ha1, hb1⟩ := hc
      simp only [List.length_cons] at ha
      obtain ⟨m, hm⟩ := ih a1 b1 hr (by omega) (by omega)
      refine ⟨fI e ++ m, ?_⟩
      rw [dms_cons_integer, hm]
      simp only [Option.map_some', Option.some.injEq, Prod.mk.injEq]
      exact ⟨trivial, by omega, by omega⟩
  | case6 rest E hne1 hne2 =>
    intro a b hc ha hb
    rw [phCounts_cons_dict] at hc
    cases hr : phCounts rest with
    | none =>
      rw [hr] at hc
      exact Option.noConfusion hc
    | some r =>
      rw [hr] at hc
      simp only [Option.map_some', Option.some.injEq, Prod.mk.injEq] at hc
      simp only [List.length_nil] at hb
      omega
  | case7 rest E d dvs hne1 hne2 ih =>
    intro a b hc ha hb
    rw [phCounts_cons_dict] at hc
    cases hr : phCounts rest with
    | none =>
      rw [hr] at hc
      exact Option.noConfusion hc
    | some r =>
      obtain ⟨a1, b1⟩ := r
      rw [hr] at hc
      simp only [Option.map_some', Option.some.injEq, Prod.mk.injEq] at hc
      obtain ⟨ha1, hb1⟩ := hc
      simp only [List.length_cons] at hb
      obtain ⟨m, hm⟩ := ih a1 b1 hr (by omega) (by omega)
      refine ⟨d ++ m, ?_⟩
      rw [dms_cons_dict, hm]
      simp only [Option.map_some', Option.some.injEq, Prod.mk.injEq]
      exact ⟨trivial, by omega, by omega⟩
  | case8 E D hne1 hne2 hne3 =>
    intro a b hc ha hb
    rw [phCounts_escape_nil] at hc
    exact Option.noConfusion hc
  | case9 E D b2 rest2 hne1 hne2 hne3 ih =>
    intro a b hc ha hb
    rw [phCounts_cons_escape] at hc
    obtain ⟨m, hm⟩ := ih a b hc ha hb
    refine ⟨b2 :: m, ?_⟩
    rw [dms_cons_escape, hm]
    rfl
  | case10 c rest E D h1 h2 h3 h4 ih =>
    intro a b hc ha hb
    rw [phCounts_cons_default rest h1 h2 h3 h4] at hc
    obtain ⟨m, hm⟩ := ih a b hc ha hb
    refine ⟨c :: m, ?_⟩
    rw [dms_cons_default fF fI rest E D h1 h2 h3 h4, hm]
    rfl

/-- The renderer fails exactly under the RenderFails condition. -/
theorem dms_none_iff (fF fI : Int → List Byte) (L : List Byte) (E : List Int)
    (D : List (List Byte)) :
    dms fF fI L E D = none ↔ RenderFails L E D := by
  constructor
  · intro h
    cases hc : phCounts L with
    | none => exact Or.inl hc
    | some ab =>
      right
      refine ⟨ab.1, ab.2, by rw [hc], ?_⟩
      by_contra hcon
      push_neg at hcon
      obtain ⟨m, hm⟩ := dms_of_counts fF fI L E D ab.1 ab.2 (by rw [hc]) hcon.1 hcon.2
      rw [hm] at h
      exact Option.noConfusion h
  · intro h
    cases hd : dms fF fI L E D with
    | none => rfl
    | some r =>
      obtain ⟨hc, ha, hb⟩ := dms_some_counts fF fI L E D r.1 r.2.1 r.2.2 hd
      rcases h with h | ⟨a, b, hab, hor⟩
      · rw [hc] at h
        exact Option.noConfusion h
      · rw [hc] at hab
        simp only [Option.some.injEq, Prod.mk.injEq] at hab
        obtain ⟨h1, h2⟩ := hab
        omega

/-- Appending surplus variables to either list preserves a successful render,
including the consumption counts. -/
theorem dms_append (fF fI : Int → List Byte) :
    ∀ (L : List Byte) (E : List Int) (D : List (List Byte))
      (E2 : List Int) (D2 : List (List Byte)) (r : List Byte × Nat × Nat),
      dms fF fI L E D = some r → dms fF fI L (E ++ E2) (D ++ D2) = some r := by
  intro L E D
  induction L, E, D using dms.induct fF fI with
  | case1 E D =>
    intro E2 D2 r h
    rw [dms_nil] at h ⊢
    exact h
  | case2 rest D =>
    intro E2 D2 r h
    rw [dms_cons_float_nil] at h
    exact Option.noConfusion h
  | case3 rest D e evs ih =>
    intro E2 D2 r h
    rw [dms_cons_float] at h
    simp only [List.cons_append]
    rw [dms_cons_float]
    cases hr : dms fF fI rest evs D with
    | none =>
      rw [hr] at h
      exact Option.noConfusion h
    | some r1 =>
      rw [ih E2 D2 r1 hr]
      rw [hr] at h
      exact h
  | case4 rest D hne1 =>
    intro E2 D2 r h
    rw [dms_cons_integer_nil] at h
    exact Option.noConfusion h
  | case5 rest D e evs hne1 ih =>
    intro E2 D2 r h
    rw [dms_cons_integer] at h
    simp only [List.cons_append]
    rw [dms_cons_integer]
    cases hr : dms fF fI rest evs D with
    | none =>
      rw [hr] at h
      exact Option.noConfusion h
    | some r1 =>
      rw [ih E2 D2 r1 hr]
      rw [hr] at h
      exact h
  | case6 rest E hne1 hne2 =>
    intro E2 D2 r h
    rw [dms_cons_dict_nil] at h
    exact Option.noConfusion h
  | case7 rest E d dvs hne1 hne2 ih =>
    intro E2 D2 r h
    rw [dms_cons_dict] at h
    simp only [List.cons_append]
    rw [dms_cons_dict]
    cases hr : dms fF fI rest E dvs with
    | none =>
      rw [hr] at h
      exact Option.noConfusion h
    | some r1 =>
      rw [ih E2 D2 r1 hr]
      rw [hr] at h
      exact h
  | case8 E D hne1 hne2 hne3 =>
    intro E2 D2 r h
    rw [dms_cons_escape_nil] at h
    exact Option.noConfusion h
  | case9 E D b2 rest2 hne1 hne2 hne3 ih =>
    intro E2 D2 r h
    rw [dms_cons_escape] at h
    rw [dms_cons_escape]
    cases hr : dms fF fI rest2 E D with
    | none =>
      rw [hr] at h
      exact Option.noConfusion h
    | some r1 =>
      rw [ih E2 D2 r1 hr]
      rw [hr] at h
      exact h
  | case10 c rest E D h1 h2 h3 h4 ih =>
    intro E2 D2 r h
    rw [dms_cons_default fF fI rest E D h1 h2 h3 h4] at h
    rw [dms_cons_default fF fI rest (E ++ E2) (D ++ D2) h1 h2 h3 h4]
    cases hr : dms fF fI rest E D with
    | none =>
      rw [hr] at h
      exact Option.noConfusion h
    | some r1 =>
      rw [ih E2 D2 r1 hr]
      rw [hr] at h
      exact h

/-- A fully escaped logtype renders to its unescaped text, consuming nothing. -/
theorem dms_flat (fF fI : Int → List Byte) (us : List EscUnit) (E : List Int)
    (D : List (List Byte)) (h : ∀ u ∈ us, u.ok) :
    dms fF fI (flatBytes us) E D = some (flatOut us, 0, 0) := by
  induction us with
  | nil => exact dms_nil fF fI E D
  | cons u us ih =>
    have hu : u.ok := h u (by simp)
    have hus : ∀ v ∈ us, v.ok := fun v hv => h v (by simp [hv])
    cases u with
    | ord b =>
      obtain ⟨h1, h2, h3, h4⟩ := hu
      have hfb : flatBytes (EscUnit.ord b :: us) = b :: flatBytes us := rfl
      have hfo : flatOut (EscUnit.ord b :: us) = b :: flatOut us := rfl
      rw [hfb, hfo, dms_cons_default fF fI (flatBytes us) E D h1 h2 h3 h4, ih hus]
      rfl
    | esc b =>
      have hfb : flatBytes (EscUnit.esc b :: us) =
          cVariablePlaceholderEscapeCharacter :: b :: flatBytes us := rfl
      have hfo : flatOut (EscUnit.esc b :: us) = b :: flatOut us := rfl
      rw [hfb, hfo, dms_cons_escape, ih hus]
      rfl

/-- parse_logtype only fails with Incomplete_IR or Corrupted_IR. -/
theorem parse_logtype_error_code {tag : Byte} {s : List Byte} {e : IRErrorCode}
    (h : parse_logtype tag s = .error e) :
    e = .Incomplete_IR ∨ e = .Corrupted_IR := by
  simp only [parse_logtype] at h
  repeat' split at h
  all_goals first
    | exact Except.noConfusion h
    | (injection h with h1; subst h1; simp)

/-- parse_dictionary_var only fails with Incomplete_IR or Corrupted_IR. -/
theorem parse_dictionary_var_error_code {tag : Byte} {s : List Byte} {e : IRErrorCode}
    (h : parse_dictionary_var tag s = .error e) :
    e = .Incomplete_IR ∨ e = .Corrupted_IR := by
  simp only [parse_dictionary_var] at h
  repeat' split at h
  all_goals first
    | exact Except.noConfusion h
    | (injection h with h1; subst h1; simp)

/-- parse_timestamp only fails with Incomplete_IR or Corrupted_IR. -/
theorem parse_timestamp_error_code {v : Variant} {tag : Byte} {s : List Byte}
    {e : IRErrorCode} (h : parse_timestamp v tag s = .error e) :
    e = .Incomplete_IR ∨ e = .Corrupted_IR := by
  simp only [parse_timestamp] at h
  repeat' split at h
  all_goals first
    | exact Except.noConfusion h
    | (injection h with h1; subst h1; simp)

/-- The variable-reading loop only fails with Incomplete_IR or Corrupted_IR. -/
theorem read_vars_error_code (v : Variant) :
    ∀ (n : Nat) (tag : Byte) (s : List Byte) (accE : List Int)
      (accD : List (List Byte)) (e : IRErrorCode), s.length ≤ n →
      read_vars v tag s accE accD = .error e →
      e = .Incomplete_IR ∨ e = .Corrupted_IR := by
  intro n
  induction n with
  | zero =>
    intro tag s accE accD e hn h
    rw [read_vars.eq_def] at h
    split at h
    · exact Except.noConfusion h
    · split at h
      · injection h with h1
        subst h1
        simp
      · split at h
        · injection h with h1
          subst h1
          simp
        · rename_i x t s2 hd heq
          have hlen := decode_int_length_le heq
          simp only [List.length_cons] at hlen
          exfalso
          omega
    · split at h
      · rename_i e2 hp
        injection h with h1
        subst h1
        exact parse_dictionary_var_error_code hp
      · split at h
        · injection h with h1
          subst h1
          simp
        · rename_i d t s2 hp heq
          have hlen := parse_dictionary_var_length_le heq
          simp only [List.length_cons] at hlen
          exfalso
          omega
  | succ n ih =>
    intro tag s accE accD e hn h
    rw [read_vars.eq_def] at h
    split at h
    · exact Except.noConfusion h
    · split at h
      · injection h with h1
        subst h1
        simp
      · split at h
        · injection h with h1
          subst h1
          simp
        · rename_i x t s2 hd heq
          have hlen := decode_int_length_le heq
          simp only [List.length_cons] at hlen
          exact ih t s2 _ _ e (by omega) h
    · split at h
      · rename_i e2 hp
        injection h with h1
        subst h1
        exact parse_dictionary_var_error_code hp
      · split at h
        · injection h with h1
          subst h1
          simp
        · rename_i d t s2 hp heq
          have hlen := parse_dictionary_var_length_le heq
          simp only [List.length_cons] at hlen
          exact ih t s2 _ _ e (by omega) h

/-- The instrumented decode_message agrees with the structural renderer. -/
theorem decode_message_core_eq_dms (fF fI : Int → List Byte) (L : List Byte)
    (E : List Int) (D : List (List Byte)) :
    decode_message_core fF fI L E D = dms fF fI L E D := by
  unfold decode_message_core
  rw [decode_message_loop_eq_dms fF fI L E D 0 0 0 0 [] (Nat.le_refl 0)]
  simp only [List.drop_zero, subStr_self]
  cases dms fF fI L E D with
  | none => rfl
  | some r => simp

/-- assemble_frame only fails with Incomplete_IR or Corrupted_IR (never with
Decode_Error). -/
theorem assemble_frame_error_code {v : Variant} {tag : Byte} {s : List Byte}
    {e : IRErrorCode} (h : assemble_frame v tag s = .error e) :
    e = .Incomplete_IR ∨ e = .Corrupted_IR := by
  simp only [assemble_frame] at h
  split at h
  · rename_i e2 hrv
    injection h with h1
    subst h1
    exact read_vars_error_code v s.length tag s [] [] e2 (Nat.le_refl _) hrv
  · split at h
    · rename_i e2 hpl
      injection h with h1
      subst h1
      exact parse_logtype_error_code hpl
    · split at h
      · injection h with h1
        subst h1
        simp
      · split at h
        · rename_i e2 hts
          injection h with h1
          subst h1
          exact parse_timestamp_error_code hts
        · exact Except.noConfusion h

/-- When the current tag is not a variable tag, the variable loop stops at
once, leaving the reader untouched. -/
theorem read_vars_not_var {v : Variant} {tag : Byte} {s : List Byte}
    {accE : List Int} {accD : List (List Byte)}
    (hv : is_variable_tag v tag = none) :
    read_vars v tag s accE accD = .ok (tag, s, accE, accD) := by
  rw [read_vars.eq_def]
  split
  · rfl
  · rename_i heq
    rw [hv] at heq
    exact Option.noConfusion heq
  · rename_i heq
    rw [hv] at heq
    exact Option.noConfusion heq

/-- The encoded-variable tag accepted by each variant. -/
def encoded_var_tag : Variant → Byte
  | .eight => cProtocol.VarEightByteEncoding
  | .four => cProtocol.VarFourByteEncoding

/-! ## Claims -/

/-- C5: for every width W in {1,2,4,8} and every W-byte pattern supplied by
the reader, decode_int returns the big-endian value (the sum of byte i times
256 to the (W-1-i), signed two-complement interpretation for the signed
forms) and leaves the rest of the stream; it returns none exactly when the
reader cannot supply W bytes. -/
theorem C5_decode_int_spec (w : Nat) (signed : Bool) (bs rest : List Byte)
    (hw : w = 1 ∨ w = 2 ∨ w = 4 ∨ w = 8) (hlen : bs.length = w) :
    decode_int w signed (bs ++ rest) =
      some ((if signed
              then toSigned w (∑ i ∈ Finset.range w, (bs.getD i 0).val * 256 ^ (w - 1 - i))
              else ((∑ i ∈ Finset.range w, (bs.getD i 0).val * 256 ^ (w - 1 - i) : Nat) : Int)),
        rest) ∧
    (∀ s : List Byte, (decode_int w signed s = none ↔ s.length < w)) := by
  constructor
  · subst hlen
    rw [decode_int_eval signed bs rest, beVal_eq_sum]
  · intro s
    exact decode_int_none_iff w signed s

/-- Witness for C5 at W = 2, signed, on bytes FF FE followed by 01. -/
theorem C5_decode_int_spec_witness :
    decode_int 2 true ([0xFF, 0xFE] ++ [0x01]) =
      some (toSigned 2
        (∑ i ∈ Finset.range 2, (([0xFF, 0xFE] : List Byte).getD i 0).val * 256 ^ (2 - 1 - i)),
        [0x01]) ∧
    (∀ s : List Byte, (decode_int 2 true s = none ↔ s.length < 2)) := by
  have h := C5_decode_int_spec 2 true [0xFF, 0xFE] [0x01] (by decide) (by decide)
  simpa using h

/-- C6: parse_timestamp in the eight-byte variant accepts only the
absolute-timestamp tag and reads an 8-byte big-endian signed integer; in the
four-byte variant the tag selects a 1-, 2-, or 4-byte signed delta returned
sign-extended, and any other tag is Corrupted_IR. -/
theorem C6_parse_timestamp_spec :
    (∀ (tag : Byte) (s : List Byte), tag ≠ cProtocol.TimestampVal →
      parse_timestamp Variant.eight tag s = .error .Corrupted_IR) ∧
    (∀ (bs rest : List Byte), bs.length = 8 →
      parse_timestamp Variant.eight cProtocol.TimestampVal (bs ++ rest) =
        .ok (toSigned 8 (beVal bs), rest)) ∧
    (∀ (bs rest : List Byte), bs.length = 1 →
      parse_timestamp Variant.four cProtocol.TimestampDeltaByte (bs ++ rest) =
        .ok (toSigned 1 (beVal bs), rest)) ∧
    (∀ (bs rest : List Byte), bs.length = 2 →
      parse_timestamp Variant.four cProtocol.TimestampDeltaShort (bs ++ rest) =
        .ok (toSigned 2 (beVal bs), rest)) ∧
    (∀ (bs rest : List Byte), bs.length = 4 →
      parse_timestamp Variant.four cProtocol.TimestampDeltaInt (bs ++ rest) =
        .ok (toSigned 4 (beVal bs), rest)) ∧
    (∀ (tag : Byte) (s : List Byte), tag ≠ cProtocol.TimestampDeltaByte →
      tag ≠ cProtocol.TimestampDeltaShort → tag ≠ cProtocol.TimestampDeltaInt →
      parse_timestamp Variant.four tag s = .error .Corrupted_IR) := by
  refine ⟨?_, ?_, ?_, ?_, ?_, ?_⟩
  · intro tag s h
    simp only [parse_timestamp]
    rw [if_neg h]
  · intro bs rest hlen
    simp only [parse_timestamp, if_true]
    rw [← hlen, decode_int_eval]
    simp
  · intro bs rest hlen
    simp only [parse_timestamp, if_true]
    rw [← hlen, decode_int_eval]
    simp
  · intro bs rest hlen
    simp only [parse_timestamp, if_true]
    rw [← hlen, decode_int_eval]
    simp [show cProtocol.TimestampDeltaShort ≠ cProtocol.TimestampDeltaByte from by decide]
  · intro bs rest hlen
    simp only [parse_timestamp, if_true]
    rw [← hlen, decode_int_eval]
    simp [show cProtocol.TimestampDeltaInt ≠ cProtocol.TimestampDeltaByte from by decide,
      show cProtocol.TimestampDeltaInt ≠ cProtocol.TimestampDeltaShort from by decide]
  · intro tag s h1 h2 h3
    simp only [parse_timestamp]
    rw [if_neg h1, if_neg h2, if_neg h3]

/-- Witness for C6 on three concrete frames. -/
theorem C6_parse_timestamp_spec_witness :
    parse_timestamp Variant.eight 0x31 [] = .error .Corrupted_IR ∧
    parse_timestamp Variant.eight cProtocol.TimestampVal
        ([0, 0, 0, 0, 0, 0, 0, 42] ++ []) =
      .ok (toSigned 8 (beVal [0, 0, 0, 0, 0, 0, 0, 42]), []) ∧
    parse_timestamp Variant.four cProtocol.TimestampDeltaByte ([0xFF] ++ []) =
      .ok (toSigned 1 (beVal [0xFF]), []) :=
  ⟨C6_parse_timestamp_spec.1 0x31 [] (by decide),
   C6_parse_timestamp_spec.2.1 [0, 0, 0, 0, 0, 0, 0, 42] [] (by decide),
   C6_parse_timestamp_spec.2.2.1 [0xFF] [] (by decide)⟩

/-- C8: if the first byte of a frame is the EOF tag, decode_next_message (in
both variants) returns Eof, consuming only that byte: the remaining stream is
exactly what followed the tag. -/
theorem C8_eof_purity (fF fI : Int → List Byte) (rest : List Byte) :
    four_byte_encoding.decode_next_message fF fI (cProtocol.Eof :: rest) =
      (.Eof, none, some rest) ∧
    eight_byte_encoding.decode_next_message fF fI (cProtocol.Eof :: rest) =
      (.Eof, none, some rest) := by
  constructor <;> rfl

/-- C1 counterexample: decode_message succeeds on the empty logtype with one
encoded variable supplied, consuming 0 encoded variables although the list
has length 1, so the renderer does not always consume exactly all of E. -/
theorem C1_count_exactness_cex :
    decode_message_core (fun z => []) (fun z => []) [] [(0 : Int)] [] =
      some ([], 0, 0) ∧
    [(0 : Int)].length ≠ 0 := by
  constructor
  · rw [decode_message_core_eq_dms]
    exact dms_nil _ _ _ _
  · decide

/-- C1 amended: whenever decode_message succeeds it consumes exactly the
number of unescaped Float/Integer placeholders and of unescaped Dictionary
placeholders of the logtype; these are at most |E| and |D| respectively, but
may be strictly fewer, since surplus variables are not checked. -/
theorem C1_count_exactness_amended (fF fI : Int → List Byte) (L : List Byte)
    (E : List Int) (D : List (List Byte)) (m : List Byte) (a b : Nat)
    (h : decode_message_core fF fI L E D = some (m, a, b)) :
    phCounts L = some (a, b) ∧ a ≤ E.length ∧ b ≤ D.length := by
  rw [decode_message_core_eq_dms] at h
  exact dms_some_counts fF fI L E D m a b h

/-- Witness for the amended C1 on a one-placeholder logtype. -/
theorem C1_count_exactness_amended_witness :
    phCounts [VariablePlaceholder.Integer] = some (1, 0) ∧
      1 ≤ [(42 : Int)].length ∧ 0 ≤ ([] : List (List Byte)).length :=
  C1_count_exactness_amended (fun z => []) (fun z => [])
    [VariablePlaceholder.Integer] [42] [] [] 1 0
    (by rw [decode_message_core_eq_dms, dms_cons_integer, dms_nil]; rfl)

/-- C7: a fully escaped logtype (each unit an ordinary byte, or the escape
byte followed by a placeholder or escape byte) renders to the text with each
unit leading escape byte removed, consuming zero variables. -/
theorem C7_escape_idempotence (fF fI : Int → List Byte) (us : List EscUnit)
    (E : List Int) (D : List (List Byte)) (h : ∀ u ∈ us, u.ok) :
    decode_message_core fF fI (flatBytes us) E D = some (flatOut us, 0, 0) := by
  rw [decode_message_core_eq_dms]
  exact dms_flat fF fI us E D h

/-- Witness for C7 on the logtype "A" ESC 0x12. -/
theorem C7_escape_idempotence_witness :
    decode_message_core (fun z => []) (fun z => [])
        (flatBytes [EscUnit.ord 0x41, EscUnit.esc 0x12]) [] [] =
      some (flatOut [EscUnit.ord 0x41, EscUnit.esc 0x12], 0, 0) :=
  C7_escape_idempotence (fun z => []) (fun z => [])
    [EscUnit.ord 0x41, EscUnit.esc 0x12] [] [] (by decide)

/-- C10: appending surplus variables to either list leaves a successful
decode_message unchanged, including the consumption counts: the renderer
never reads variables beyond those consumed by placeholders and performs no
surplus check. -/
theorem C10_surplus_variables (fF fI : Int → List Byte) (L : List Byte)
    (E : List Int) (D : List (List Byte)) (E2 : List Int) (D2 : List (List Byte))
    (r : List Byte × Nat × Nat) (h : decode_message_core fF fI L E D = some r) :
    decode_message_core fF fI L (E ++ E2) (D ++ D2) = some r := by
  rw [decode_message_core_eq_dms] at h ⊢
  exact dms_append fF fI L E D E2 D2 r h

/-- Witness for C10: surplus variables appended to both lists. -/
theorem C10_surplus_variables_witness :
    decode_message_core (fun z => []) (fun z => [])
      [VariablePlaceholder.Integer] ([42] ++ [7]) ([] ++ [[0x41]]) =
      some ([], 1, 0) :=
  C10_surplus_variables (fun z => []) (fun z => [])
    [VariablePlaceholder.Integer] [42] [] [7] [[0x41]] ([], 1, 0)
    (by rw [decode_message_core_eq_dms, dms_cons_integer, dms_nil]; rfl)

/-- C3: for every byte prefix of magic-number length, get_encoding_type is
Success with four-byte encoding iff the prefix equals the four-byte magic,
Success with eight-byte encoding iff it equals the eight-byte magic, and
Corrupted_IR otherwise; it is Incomplete_IR exactly when the reader cannot
supply the magic-number length. -/
theorem C3_get_encoding_type_spec (s : List Byte) :
    ((get_encoding_type s).1 = .Incomplete_IR ↔ s.length < cProtocol.MagicNumberLength) ∧
    (cProtocol.MagicNumberLength ≤ s.length →
      ((get_encoding_type s = (.Success, some true) ↔
          s.take cProtocol.MagicNumberLength = cProtocol.FourByteEncodingMagicNumber) ∧
       (get_encoding_type s = (.Success, some false) ↔
          s.take cProtocol.MagicNumberLength = cProtocol.EightByteEncodingMagicNumber) ∧
       (get_encoding_type s = (.Corrupted_IR, none) ↔
          (s.take cProtocol.MagicNumberLength ≠ cProtocol.FourByteEncodingMagicNumber ∧
           s.take cProtocol.MagicNumberLength ≠ cProtocol.EightByteEncodingMagicNumber)))) := by
  have hne : cProtocol.FourByteEncodingMagicNumber ≠ cProtocol.EightByteEncodingMagicNumber :=
    by decide
  by_cases hlen : cProtocol.MagicNumberLength ≤ s.length
  · by_cases h4 : s.take cProtocol.MagicNumberLength = cProtocol.FourByteEncodingMagicNumber
    · have hval : get_encoding_type s = (.Success, some true) := by
        unfold get_encoding_type
        rw [if_pos hlen, if_pos h4]
      refine ⟨?_, fun hc => ⟨?_, ?_, ?_⟩⟩
      · rw [hval]
        simp only [Prod.fst]
        constructor
        · intro hcon
          exact absurd hcon (by decide)
        · intro hcon
          omega
      · rw [hval]
        simp [h4]
      · rw [hval, h4]
        simp [hne]
      · rw [hval, h4]
        simp [hne]
    · by_cases h8 : s.take cProtocol.MagicNumberLength = cProtocol.EightByteEncodingMagicNumber
      · have hval : get_encoding_type s = (.Success, some false) := by
          unfold get_encoding_type
          rw [if_pos hlen, if_neg h4, if_pos h8]
        refine ⟨?_, fun hc => ⟨?_, ?_, ?_⟩⟩
        · rw [hval]
          simp only [Prod.fst]
          constructor
          · intro hcon
            exact absurd hcon (by decide)
          · intro hcon
            omega
        · rw [hval]
          simp [h4]
        · rw [hval]
          simp [h8]
        · rw [hval]
          simp [h8]
      · have hval : get_encoding_type s = (.Corrupted_IR, none) := by
          unfold get_encoding_type
          rw [if_pos hlen, if_neg h4, if_neg h8]
        refine ⟨?_, fun hc => ⟨?_, ?_, ?_⟩⟩
        · rw [hval]
          simp only [Prod.fst]
          constructor
          · intro hcon
            exact absurd hcon (by decide)
          · intro hcon
            omega
        · rw [hval]
          simp [h4]
        · rw [hval]
          simp [h8]
        · rw [hval]
          simp [h4, h8]
  · have hval : get_encoding_type s = (.Incomplete_IR, none) := by
      unfold get_encoding_type
      rw [if_neg hlen]
    refine ⟨?_, fun hc => absurd hc hlen⟩
    rw [hval]
    simp only [Prod.fst]
    constructor
    · intro _
      omega
    · intro _
      trivial

/-- Witness for C3: the four-byte magic number itself. -/
theorem C3_get_encoding_type_spec_witness :
    get_encoding_type cProtocol.FourByteEncodingMagicNumber =
      (IRErrorCode.Success, some true) :=
  ((C3_get_encoding_type_spec cProtocol.FourByteEncodingMagicNumber).2
    (by decide)).1.mpr (by decide)

/-- C2 counterexample: on the signed 32-bit length form with the 4-byte
big-endian payload FF FF FF FF (signed value -1), both parsers return
Incomplete_IR, not the Corrupted_IR that the claim requires. -/
theorem C2_negative_length_cex :
    parse_logtype cProtocol.LogtypeStrLenInt [0xFF, 0xFF, 0xFF, 0xFF] =
      .error .Incomplete_IR ∧
    parse_dictionary_var cProtocol.VarStrLenInt [0xFF, 0xFF, 0xFF, 0xFF] =
      .error .Incomplete_IR ∧
    IRErrorCode.Incomplete_IR ≠ IRErrorCode.Corrupted_IR := by
  refine ⟨?_, ?_, by decide⟩ <;> rfl

/-- C2 amended: a negative signed 32-bit length is silently converted to the
huge unsigned count v + 2 to the 64, which no stream short of that many bytes
can satisfy, so both parsers return Incomplete_IR instead of rejecting the
negative length as Corrupted_IR. -/
theorem C2_negative_length_amended (b0 b1 b2 b3 : Byte) (s : List Byte)
    (hneg : 128 ≤ b0.val) (hs : s.length < 2 ^ 63) :
    parse_logtype cProtocol.LogtypeStrLenInt (b0 :: b1 :: b2 :: b3 :: s) =
      .error .Incomplete_IR ∧
    parse_dictionary_var cProtocol.VarStrLenInt (b0 :: b1 :: b2 :: b3 :: s) =
      .error .Incomplete_IR := by
  have hb0 := b0.isLt
  have hb1 := b1.isLt
  have hb2 := b2.isLt
  have hb3 := b3.isLt
  have p31 : (2 : Nat) ^ (8 * 4 - 1) = 2147483648 := by norm_num
  have p63 : (2 : Nat) ^ 63 = 9223372036854775808 := by norm_num
  rw [p63] at hs
  have hnval : beVal [b0, b1, b2, b3] =
      256 * (256 * (256 * b0.val + b1.val) + b2.val) + b3.val := by
    simp [beVal, List.foldl_cons, List.foldl_nil]
  have hlo : 2147483648 ≤ beVal [b0, b1, b2, b3] := by
    rw [hnval]
    omega
  have hhi : beVal [b0, b1, b2, b3] < 4294967296 := by
    rw [hnval]
    omega
  have hdec : decode_int 4 true ([b0, b1, b2, b3] ++ s) =
      some (toSigned 4 (beVal [b0, b1, b2, b3]), s) := by
    have h := decode_int_eval true [b0, b1, b2, b3] s
    norm_num at h
    exact h
  have hts : toSigned 4 (beVal [b0, b1, b2, b3]) =
      (beVal [b0, b1, b2, b3] : Int) - 4294967296 := by
    unfold toSigned
    rw [p31, if_neg (by omega)]
    norm_num
  have hsz : size_t_of_int32 ((beVal [b0, b1, b2, b3] : Int) - 4294967296) =
      beVal [b0, b1, b2, b3] + 18446744073709551616 - 4294967296 := by
    unfold size_t_of_int32
    have hzlo : (2147483648 : Int) ≤ (beVal [b0, b1, b2, b3] : Int) := by
      exact_mod_cast hlo
    have hzhi : (beVal [b0, b1, b2, b3] : Int) < 4294967296 := by
      exact_mod_cast hhi
    have hp64 : (2 : Int) ^ 64 = 18446744073709551616 := by norm_num
    rw [hp64]
    omega
  have htr : try_read_string
      (beVal [b0, b1, b2, b3] + 18446744073709551616 - 4294967296) s = none := by
    unfold try_read_string
    rw [if_neg (by omega)]
  have hsplit : (b0 :: b1 :: b2 :: b3 :: s) = [b0, b1, b2, b3] ++ s := rfl
  constructor
  · unfold parse_logtype
    rw [if_neg (by decide), if_neg (by decide), if_pos rfl, hsplit, hdec]
    simp only []
    rw [hts, hsz, htr]
  · unfold parse_dictionary_var
    rw [if_neg (by decide), if_neg (by decide), if_pos rfl, hsplit, hdec]
    simp only []
    rw [hts, hsz, htr]

/-- Witness for the amended C2 on the length payload FF FF FF FF and an empty
remainder. -/
theorem C2_negative_length_amended_witness :
    parse_logtype cProtocol.LogtypeStrLenInt
        ((0xFF : Byte) :: (0xFF : Byte) :: (0xFF : Byte) :: (0xFF : Byte) :: []) =
      .error .Incomplete_IR ∧
    parse_dictionary_var cProtocol.VarStrLenInt
        ((0xFF : Byte) :: (0xFF : Byte) :: (0xFF : Byte) :: (0xFF : Byte) :: []) =
      .error .Incomplete_IR :=
  C2_negative_length_amended 0xFF 0xFF 0xFF 0xFF [] (by decide) (by norm_num)

/-- C4: decode_next_message returns Decode_Error exactly when the frame was
assembled successfully (variables, logtype, and timestamp all parsed) but the
renderer failed: the logtype needs more encoded or dictionary variables than
were supplied, or ends in an unescaped escape byte. -/
theorem C4_decode_error_iff (v : Variant) (fF fI : Int → List Byte) (s : List Byte) :
    (generic_decode_next_message v fF fI s).1 = .Decode_Error ↔
      ∃ t s1 L E D ts rest,
        s = t :: s1 ∧ t ≠ cProtocol.Eof ∧
        assemble_frame v t s1 = .ok ((L, E, D, ts), rest) ∧
        RenderFails L E D := by
  constructor
  · intro h
    cases s with
    | nil =>
      simp only [generic_decode_next_message] at h
      exact absurd h (by decide)
    | cons t s1 =>
      simp only [generic_decode_next_message] at h
      by_cases ht : t = cProtocol.Eof
      · rw [if_pos ht] at h
        replace h : IRErrorCode.Eof = IRErrorCode.Decode_Error := h
        exact absurd h (by decide)
      · rw [if_neg ht] at h
        cases ha : assemble_frame v t s1 with
        | error e =>
          rw [ha] at h
          replace h : e = IRErrorCode.Decode_Error := h
          rcases assemble_frame_error_code ha with he | he <;>
            (subst he; exact absurd h (by decide))
        | ok res =>
          obtain ⟨⟨L, E, D, ts⟩, rest⟩ := res
          rw [ha] at h
          simp only [] at h
          cases hdm : decode_message fF fI L E D with
          | none =>
            refine ⟨t, s1, L, E, D, ts, rest, rfl, ht, ha, ?_⟩
            have hcore : decode_message_core fF fI L E D = none := by
              cases hc : decode_message_core fF fI L E D with
              | none => rfl
              | some r =>
                rw [decode_message, hc] at hdm
                exact Option.noConfusion hdm
            rw [decode_message_core_eq_dms] at hcore
            exact (dms_none_iff fF fI L E D).mp hcore
          | some m =>
            rw [hdm] at h
            replace h : IRErrorCode.Success = IRErrorCode.Decode_Error := h
            exact absurd h (by decide)
  · rintro ⟨t, s1, L, E, D, ts, rest, rfl, ht, ha, hrf⟩
    have hdms : dms fF fI L E D = none := (dms_none_iff fF fI L E D).mpr hrf
    have hcore : decode_message_core fF fI L E D = none := by
      rw [decode_message_core_eq_dms]
      exact hdms
    have hdm : decode_message fF fI L E D = none := by
      rw [decode_message, hcore]
      rfl
    simp only [generic_decode_next_message]
    rw [if_neg ht, ha]
    simp only []
    rw [hdm]

/-- Witness for C4: a frame whose logtype is a single unescaped escape byte
assembles cleanly and then fails rendering with Decode_Error. -/
theorem C4_decode_error_iff_witness :
    (generic_decode_next_message Variant.four (fun z => []) (fun z => [])
      [0x21, 0x01, cVariablePlaceholderEscapeCharacter, 0x31, 0x00]).1 =
      .Decode_Error := by
  apply (C4_decode_error_iff Variant.four (fun z => []) (fun z => []) _).mpr
  refine ⟨0x21, [0x01, cVariablePlaceholderEscapeCharacter, 0x31, 0x00],
    [cVariablePlaceholderEscapeCharacter], [], [], 0, [], rfl, by decide, ?_,
    Or.inl phCounts_escape_nil⟩
  simp only [assemble_frame]
  rw [read_vars_not_var (by decide)]
  rfl

/-! ## Wire format of variable and logtype records, for the wrong-role-tag
claim about positions after the start of a frame -/

/-- The variable tags permitted by a variant: the three dictionary-variable
length tags and the variant encoded-variable tag. -/
def is_var_tag (v : Variant) (t : Byte) : Prop :=
  t = cProtocol.VarStrLenUByte ∨ t = cProtocol.VarStrLenUShort ∨
    t = cProtocol.VarStrLenInt ∨ t = encoded_var_tag v

/-- The three logtype-length tags. -/
def is_logtype_tag (t : Byte) : Prop :=
  t = cProtocol.LogtypeStrLenUByte ∨ t = cProtocol.LogtypeStrLenUShort ∨
    t = cProtocol.LogtypeStrLenInt

/-- The timestamp tags permitted by a variant. -/
def is_timestamp_tag (v : Variant) (t : Byte) : Prop :=
  match v with
  | .eight => t = cProtocol.TimestampVal
  | .four =>
    t = cProtocol.TimestampDeltaByte ∨ t = cProtocol.TimestampDeltaShort ∨
      t = cProtocol.TimestampDeltaInt

instance (v : Variant) (t : Byte) : Decidable (is_var_tag v t) := by
  unfold is_var_tag
  infer_instance

instance (t : Byte) : Decidable (is_logtype_tag t) := by
  unfold is_logtype_tag
  infer_instance

instance (v : Variant) (t : Byte) : Decidable (is_timestamp_tag v t) := by
  cases v <;> (simp only [is_timestamp_tag]; infer_instance)

/-- One variable record on the wire: an encoded variable with its fixed-width
payload, or a dictionary variable under one of the three length forms, the
length prefix given as its big-endian bytes. -/
inductive VarRec where
  | enc (payload : List Byte)
  | dictU8 (lb : Byte) (str : List Byte)
  | dictU16 (l0 l1 : Byte) (str : List Byte)
  | dictI32 (l0 l1 l2 l3 : Byte) (str : List Byte)
deriving DecidableEq, Repr

/-- Wire bytes of a variable record. -/
def VarRec.bytes (v : Variant) : VarRec → List Byte
  | .enc payload => encoded_var_tag v :: payload
  | .dictU8 lb str => cProtocol.VarStrLenUByte :: lb :: str
  | .dictU16 l0 l1 str => cProtocol.VarStrLenUShort :: l0 :: l1 :: str
  | .dictI32 l0 l1 l2 l3 str => cProtocol.VarStrLenInt :: l0 :: l1 :: l2 :: l3 :: str

/-- Well-formedness of a variable record: the encoded payload has the width
of the variant, and a dictionary length prefix decodes to the string length
(nonnegative for the signed form). -/
def VarRec.ok (v : Variant) : VarRec → Prop
  | .enc payload => payload.length = varWidth v
  | .dictU8 lb str => lb.val = str.length
  | .dictU16 l0 l1 str => beVal [l0, l1] = str.length
  | .dictI32 l0 l1 l2 l3 str =>
    beVal [l0, l1, l2, l3] < 2 ^ 31 ∧ beVal [l0, l1, l2, l3] = str.length

instance (v : Variant) (r : VarRec) : Decidable (r.ok v) := by
  cases r <;> (simp only [VarRec.ok]; infer_instance)

/-- Concatenated wire bytes of a list of variable records. -/
def flatRecs (v : Variant) : List VarRec → List Byte
  | [] => []
  | r :: rs => r.bytes v ++ flatRecs v rs

/-- One logtype record on the wire, under one of the three length forms. -/
inductive LogRec where
  | u8 (lb : Byte) (L : List Byte)
  | u16 (l0 l1 : Byte) (L : List Byte)
  | i32 (l0 l1 l2 l3 : Byte) (L : List Byte)
deriving DecidableEq, Repr

/-- Wire bytes of a logtype record. -/
def LogRec.bytes : LogRec → List Byte
  | .u8 lb L => cProtocol.LogtypeStrLenUByte :: lb :: L
  | .u16 l0 l1 L => cProtocol.LogtypeStrLenUShort :: l0 :: l1 :: L
  | .i32 l0 l1 l2 l3 L => cProtocol.LogtypeStrLenInt :: l0 :: l1 :: l2 :: l3 :: L

/-- Well-formedness of a logtype record: the length prefix decodes to the
logtype length (nonnegative for the signed form). -/
def LogRec.ok : LogRec → Prop
  | .u8 lb L => lb.val = L.length
  | .u16 l0 l1 L => beVal [l0, l1] = L.length
  | .i32 l0 l1 l2 l3 L =>
    beVal [l0, l1, l2, l3] < 2 ^ 31 ∧ beVal [l0, l1, l2, l3] = L.length

instance (r : LogRec) : Decidable r.ok := by
  cases r <;> (simp only [LogRec.ok]; infer_instance)

/-- reading exactly the leading block of a stream succeeds and leaves the
remainder. -/
theorem try_read_string_exact (str Z : List Byte) :
    try_read_string str.length (str ++ Z) = some (str, Z) := by
  unfold try_read_string
  rw [if_pos (by simp), List.take_left, List.drop_left]

/-- A byte that is not a variable tag of the variant is classified none. -/
theorem is_variable_tag_none {v : Variant} {t : Byte} (h : ¬is_var_tag v t) :
    is_variable_tag v t = none := by
  unfold is_var_tag at h
  push_neg at h
  obtain ⟨h1, h2, h3, h4⟩ := h
  unfold is_variable_tag
  rw [if_neg (by tauto)]
  cases v with
  | eight =>
    simp only []
    rw [if_neg (by simpa [encoded_var_tag] using h4)]
  | four =>
    simp only []
    rw [if_neg (by simpa [encoded_var_tag] using h4)]

/-- The encoded-variable tag of the variant is classified as an encoded
variable. -/
theorem is_variable_tag_enc (v : Variant) :
    is_variable_tag v (encoded_var_tag v) = some true := by
  cases v <;> decide

/-- The three dictionary length tags are classified as dictionary variables. -/
theorem is_variable_tag_dictU8 (v : Variant) :
    is_variable_tag v cProtocol.VarStrLenUByte = some false := by
  cases v <;> decide

theorem is_variable_tag_dictU16 (v : Variant) :
    is_variable_tag v cProtocol.VarStrLenUShort = some false := by
  cases v <;> decide

theorem is_variable_tag_dictI32 (v : Variant) :
    is_variable_tag v cProtocol.VarStrLenInt = some false := by
  cases v <;> decide

/-- Logtype tags are not variable tags. -/
theorem is_variable_tag_logtype (v : Variant) (t : Byte) (h : is_logtype_tag t) :
    is_variable_tag v t = none := by
  rcases h with h | h | h <;> subst h <;> cases v <;> decide

/-- parse_dictionary_var on a well-formed 1-byte-length record. -/
theorem parse_dictionary_var_rec_u8 (lb : Byte) (str Z : List Byte)
    (h : lb.val = str.length) :
    parse_dictionary_var cProtocol.VarStrLenUByte (lb :: (str ++ Z)) = .ok (str, Z) := by
  unfold parse_dictionary_var
  rw [if_pos rfl]
  have hd : decode_int 1 false ([lb] ++ (str ++ Z)) =
      some ((beVal [lb] : Int), str ++ Z) := by
    have hh := decode_int_eval false [lb] (str ++ Z)
    simpa using hh
  rw [show lb :: (str ++ Z) = [lb] ++ (str ++ Z) from rfl, hd]
  simp only []
  have hb : beVal [lb] = lb.val := by simp [beVal]
  have hlen : (beVal [lb] : Int).toNat = str.length := by omega
  rw [hlen, try_read_string_exact]

/-- parse_dictionary_var on a well-formed 2-byte-length record. -/
theorem parse_dictionary_var_rec_u16 (l0 l1 : Byte) (str Z : List Byte)
    (h : beVal [l0, l1] = str.length) :
    parse_dictionary_var cProtocol.VarStrLenUShort (l0 :: l1 :: (str ++ Z)) =
      .ok (str, Z) := by
  unfold parse_dictionary_var
  rw [if_neg (by decide), if_pos rfl]
  have hd : decode_int 2 false ([l0, l1] ++ (str ++ Z)) =
      some ((beVal [l0, l1] : Int), str ++ Z) := by
    have hh := decode_int_eval false [l0, l1] (str ++ Z)
    simpa using hh
  rw [show l0 :: l1 :: (str ++ Z) = [l0, l1] ++ (str ++ Z) from rfl, hd]
  simp only []
  have hlen : (beVal [l0, l1] : Int).toNat = str.length := by omega
  rw [hlen, try_read_string_exact]

/-- parse_dictionary_var on a well-formed nonnegative signed-4-byte-length
record. -/
theorem parse_dictionary_var_rec_i32 (l0 l1 l2 l3 : Byte) (str Z : List Byte)
    (hpos : beVal [l0, l1, l2, l3] < 2 ^ 31)
    (h : beVal [l0, l1, l2, l3] = str.length) :
    parse_dictionary_var cProtocol.VarStrLenInt
        (l0 :: l1 :: l2 :: l3 :: (str ++ Z)) = .ok (str, Z) := by
  unfold parse_dictionary_var
  rw [if_neg (by decide), if_neg (by decide), if_pos rfl]
  have hd : decode_int 4 true ([l0, l1, l2, l3] ++ (str ++ Z)) =
      some (toSigned 4 (beVal [l0, l1, l2, l3]), str ++ Z) := by
    have hh := decode_int_eval true [l0, l1, l2, l3] (str ++ Z)
    simpa using hh
  rw [show l0 :: l1 :: l2 :: l3 :: (str ++ Z) = [l0, l1, l2, l3] ++ (str ++ Z) from rfl,
    hd]
  simp only []
  have hp31 : beVal [l0, l1, l2, l3] < 2147483648 := by
    have hc := hpos
    norm_num at hc
    exact hc
  have hts : toSigned 4 (beVal [l0, l1, l2, l3]) =
      (beVal [l0, l1, l2, l3] : Int) := by
    unfold toSigned
    rw [if_pos (by norm_num; omega)]
  have hsz : size_t_of_int32 ((beVal [l0, l1, l2, l3] : Int)) = str.length := by
    unfold size_t_of_int32
    have hp64 : (2 : Int) ^ 64 = 18446744073709551616 := by norm_num
    rw [hp64]
    omega
  rw [hts, hsz, try_read_string_exact]

/-- parse_logtype on a well-formed 1-byte-length record. -/
theorem parse_logtype_rec_u8 (lb : Byte) (L Z : List Byte)
    (h : lb.val = L.length) :
    parse_logtype cProtocol.LogtypeStrLenUByte (lb :: (L ++ Z)) = .ok (L, Z) := by
  unfold parse_logtype
  rw [if_pos rfl]
  have hd : decode_int 1 false ([lb] ++ (L ++ Z)) =
      some ((beVal [lb] : Int), L ++ Z) := by
    have hh := decode_int_eval false [lb] (L ++ Z)
    simpa using hh
  rw [show lb :: (L ++ Z) = [lb] ++ (L ++ Z) from rfl, hd]
  simp only []
  have hb : beVal [lb] = lb.val := by simp [beVal]
  have hlen : (beVal [lb] : Int).toNat = L.length := by omega
  rw [hlen, try_read_string_exact]

/-- parse_logtype on a well-formed 2-byte-length record. -/
theorem parse_logtype_rec_u16 (l0 l1 : Byte) (L Z : List Byte)
    (h : beVal [l0, l1] = L.length) :
    parse_logtype cProtocol.LogtypeStrLenUShort (l0 :: l1 :: (L ++ Z)) =
      .ok (L, Z) := by
  unfold parse_logtype
  rw [if_neg (by decide), if_pos rfl]
  have hd : decode_int 2 false ([l0, l1] ++ (L ++ Z)) =
      some ((beVal [l0, l1] : Int), L ++ Z) := by
    have hh := decode_int_eval false [l0, l1] (L ++ Z)
    simpa using hh
  rw [show l0 :: l1 :: (L ++ Z) = [l0, l1] ++ (L ++ Z) from rfl, hd]
  simp only []
  have hlen : (beVal [l0, l1] : Int).toNat = L.length := by omega
  rw [hlen, try_read_string_exact]

/-- parse_logtype on a well-formed nonnegative signed-4-byte-length record. -/
theorem parse_logtype_rec_i32 (l0 l1 l2 l3 : Byte) (L Z : List Byte)
    (hpos : beVal [l0, l1, l2, l3] < 2 ^ 31)
    (h : beVal [l0, l1, l2, l3] = L.length) :
    parse_logtype cProtocol.LogtypeStrLenInt
        (l0 :: l1 :: l2 :: l3 :: (L ++ Z)) = .ok (L, Z) := by
  unfold parse_logtype
  rw [if_neg (by decide), if_neg (by decide), if_pos rfl]
  have hd : decode_int 4 true ([l0, l1, l2, l3] ++ (L ++ Z)) =
      some (toSigned 4 (beVal [l0, l1, l2, l3]), L ++ Z) := by
    have hh := decode_int_eval true [l0, l1, l2, l3] (L ++ Z)
    simpa using hh
  rw [show l0 :: l1 :: l2 :: l3 :: (L ++ Z) = [l0, l1, l2, l3] ++ (L ++ Z) from rfl,
    hd]
  simp only []
  have hp31 : beVal [l0, l1, l2, l3] < 2147483648 := by
    have hc := hpos
    norm_num at hc
    exact hc
  have hts : toSigned 4 (beVal [l0, l1, l2, l3]) =
      (beVal [l0, l1, l2, l3] : Int) := by
    unfold toSigned
    rw [if_pos (by norm_num; omega)]
  have hsz : size_t_of_int32 ((beVal [l0, l1, l2, l3] : Int)) = L.length := by
    unfold size_t_of_int32
    have hp64 : (2 : Int) ^ 64 = 18446744073709551616 := by norm_num
    rw [hp64]
    omega
  rw [hts, hsz, try_read_string_exact]

/-- One encoded-variable iteration of the variable loop. -/
theorem read_vars_enc_step {v : Variant} {tag : Byte} {s : List Byte}
    {accE : List Int} {accD : List (List Byte)} {x : Int} {t2 : Byte} {s2 : List Byte}
    (hv : is_variable_tag v tag = some true)
    (hd : decode_int (varWidth v) true s = some (x, t2 :: s2)) :
    read_vars v tag s accE accD = read_vars v t2 s2 (accE ++ [x]) accD := by
  rw [read_vars.eq_def]
  split
  · rename_i heq
    rw [hv] at heq
    exact Option.noConfusion heq
  · split
    · rename_i heq
      rw [hd] at heq
      exact Option.noConfusion heq
    · split
      · rename_i x1 hd2 heq
        rw [hd] at heq
        injection heq with hpair
        exact absurd hpair (by simp)
      · rename_i x1 t3 s3 hd2 heq
        rw [hd] at heq
        injection heq with hpair
        obtain ⟨hx, ht, hs⟩ : x = x1 ∧ t2 = t3 ∧ s2 = s3 := by simpa using hpair
        subst hx
        subst ht
        subst hs
        rfl
  · rename_i heq
    rw [hv] at heq
    injection heq with hb
    exact Bool.noConfusion hb

/-- One dictionary-variable iteration of the variable loop. -/
theorem read_vars_dict_step {v : Variant} {tag : Byte} {s : List Byte}
    {accE : List Int} {accD : List (List Byte)} {d : List Byte} {t2 : Byte}
    {s2 : List Byte}
    (hv : is_variable_tag v tag = some false)
    (hp : parse_dictionary_var tag s = .ok (d, t2 :: s2)) :
    read_vars v tag s accE accD = read_vars v t2 s2 accE (accD ++ [d]) := by
  rw [read_vars.eq_def]
  split
  · rename_i heq
    rw [hv] at heq
    exact Option.noConfusion heq
  · rename_i heq
    rw [hv] at heq
    injection heq with hb
    exact Bool.noConfusion hb
  · split
    · rename_i e1 heq
      rw [hp] at heq
      exact Except.noConfusion heq
    · split
      · rename_i d1 hp2 heq
        rw [hp] at heq
        injection heq with hpair
        exact absurd hpair (by simp)
      · rename_i d1 t3 s3 hp2 heq
        rw [hp] at heq
        injection heq with hpair
        obtain ⟨hdd, ht, hs⟩ : d = d1 ∧ t2 = t3 ∧ s2 = s3 := by simpa using hpair
        subst hdd
        subst ht
        subst hs
        rfl

/-- The variable loop consumes any sequence of well-formed variable records
and stops at the first non-variable tag, leaving the reader right after it. -/
theorem read_vars_through_records (v : Variant) :
    ∀ (recs : List VarRec), (∀ r ∈ recs, r.ok v) →
    ∀ (t : Byte) (rest : List Byte), is_variable_tag v t = none →
    ∀ (accE : List Int) (accD : List (List Byte)) (u : Byte) (s0 : List Byte),
      u :: s0 = flatRecs v recs ++ t :: rest →
      ∃ E D, read_vars v u s0 accE accD = .ok (t, rest, E, D) := by
  intro recs
  induction recs with
  | nil =>
    intro hok t rest hv accE accD u s0 heq
    simp only [flatRecs, List.nil_append] at heq
    injection heq with h1 h2
    subst h1
    subst h2
    exact ⟨accE, accD, read_vars_not_var hv⟩
  | cons r rs ih =>
    intro hok t rest hv accE accD u s0 heq
    have hokr : r.ok v := hok r (by simp)
    have hoks : ∀ r2 ∈ rs, r2.ok v := fun r2 h2 => hok r2 (by simp [h2])
    cases r with
    | enc payload =>
      simp only [flatRecs, VarRec.bytes, List.cons_append, List.append_assoc] at heq
      injection heq with h1 h2
      subst h1
      subst h2
      have hlen : payload.length = varWidth v := hokr
      have hd := decode_int_eval true payload (flatRecs v rs ++ t :: rest)
      rw [hlen] at hd
      cases hz : flatRecs v rs ++ t :: rest with
      | nil => exact absurd hz (by simp)
      | cons z0 ztail =>
        rw [hz] at hd
        rw [read_vars_enc_step (is_variable_tag_enc v) hd]
        exact ih hoks t rest hv _ accD z0 ztail hz.symm
    | dictU8 lb str =>
      simp only [flatRecs, VarRec.bytes, List.cons_append, List.append_assoc] at heq
      injection heq with h1 h2
      subst h1
      subst h2
      have hp := parse_dictionary_var_rec_u8 lb str (flatRecs v rs ++ t :: rest) hokr
      cases hz : flatRecs v rs ++ t :: rest with
      | nil => exact absurd hz (by simp)
      | cons z0 ztail =>
        rw [hz] at hp
        rw [read_vars_dict_step (is_variable_tag_dictU8 v) hp]
        exact ih hoks t rest hv accE _ z0 ztail hz.symm
    | dictU16 l0 l1 str =>
      simp only [flatRecs, VarRec.bytes, List.cons_append, List.append_assoc] at heq
      injection heq with h1 h2
      subst h1
      subst h2
      have hp := parse_dictionary_var_rec_u16 l0 l1 str (flatRecs v rs ++ t :: rest) hokr
      cases hz : flatRecs v rs ++ t :: rest with
      | nil => exact absurd hz (by simp)
      | cons z0 ztail =>
        rw [hz] at hp
        rw [read_vars_dict_step (is_variable_tag_dictU16 v) hp]
        exact ih hoks t rest hv accE _ z0 ztail hz.symm
    | dictI32 l0 l1 l2 l3 str =>
      simp only [flatRecs, VarRec.bytes, List.cons_append, List.append_assoc] at heq
      injection heq with h1 h2
      subst h1
      subst h2
      have hp := parse_dictionary_var_rec_i32 l0 l1 l2 l3 str
        (flatRecs v rs ++ t :: rest) hokr.1 hokr.2
      cases hz : flatRecs v rs ++ t :: rest with
      | nil => exact absurd hz (by simp)
      | cons z0 ztail =>
        rw [hz] at hp
        rw [read_vars_dict_step (is_variable_tag_dictI32 v) hp]
        exact ih hoks t rest hv accE _ z0 ztail hz.symm

/-- A tag that is not one of the three logtype-length tags makes
parse_logtype fail with Corrupted_IR. -/
theorem parse_logtype_bad_tag {t : Byte} (h : ¬is_logtype_tag t) (s : List Byte) :
    parse_logtype t s = .error .Corrupted_IR := by
  unfold is_logtype_tag at h
  push_neg at h
  unfold parse_logtype
  rw [if_neg h.1, if_neg h.2.1, if_neg h.2.2]

/-- A tag that is not a timestamp tag of the variant makes parse_timestamp
fail with Corrupted_IR. -/
theorem parse_timestamp_bad_tag {v : Variant} {t : Byte}
    (h : ¬is_timestamp_tag v t) (s : List Byte) :
    parse_timestamp v t s = .error .Corrupted_IR := by
  cases v with
  | eight =>
    simp only [is_timestamp_tag] at h
    simp only [parse_timestamp]
    rw [if_neg h]
  | four =>
    simp only [is_timestamp_tag] at h
    push_neg at h
    simp only [parse_timestamp]
    rw [if_neg h.1, if_neg h.2.1, if_neg h.2.2]

/-- The first byte of a nonempty variable-record sequence is a variable tag,
never the EOF tag. -/
theorem flatRecs_head_ne_eof (v : Variant) (r : VarRec) (rs : List VarRec)
    {u : Byte} {s0 X : List Byte} (heq : u :: s0 = flatRecs v (r :: rs) ++ X) :
    u ≠ cProtocol.Eof := by
  cases r <;>
    (simp only [flatRecs, VarRec.bytes, List.cons_append, List.append_assoc] at heq
     injection heq with h1 h2
     subst h1
     first
       | (cases v <;> decide)
       | decide)

/-- C9: a tag that does not match its permitted role at the current parser
position makes decode_next_message return Corrupted_IR: (1) a first frame
byte outside the set of the EOF tag, the variable tags of the variant, and
the logtype-length tags; (2) after one or more well-formed variable records,
a tag that is neither a variable tag nor a logtype-length tag (the EOF tag
included, since EOF is only permitted at a frame boundary); (3) after the
variable records and a well-formed logtype record, a tag that is not a
timestamp tag of the variant. -/
theorem C9_corrupted_wrong_role_tag (v : Variant) (fF fI : Int → List Byte) :
    (∀ (t : Byte) (rest : List Byte),
      t ≠ cProtocol.Eof → ¬is_var_tag v t → ¬is_logtype_tag t →
      generic_decode_next_message v fF fI (t :: rest) =
        (.Corrupted_IR, none, none)) ∧
    (∀ (recs : List VarRec) (t : Byte) (rest : List Byte),
      recs ≠ [] → (∀ r ∈ recs, r.ok v) → ¬is_var_tag v t → ¬is_logtype_tag t →
      generic_decode_next_message v fF fI (flatRecs v recs ++ t :: rest) =
        (.Corrupted_IR, none, none)) ∧
    (∀ (recs : List VarRec) (lrec : LogRec) (tt : Byte) (rest : List Byte),
      (∀ r ∈ recs, r.ok v) → lrec.ok → ¬is_timestamp_tag v tt →
      generic_decode_next_message v fF fI
          (flatRecs v recs ++ lrec.bytes ++ tt :: rest) =
        (.Corrupted_IR, none, none)) := by
  refine ⟨?_, ?_, ?_⟩
  · intro t rest hne hv hl
    have hvn := is_variable_tag_none hv
    have hrv : read_vars v t rest [] [] = .ok (t, rest, [], []) :=
      read_vars_not_var hvn
    have hpl := parse_logtype_bad_tag hl rest
    simp only [generic_decode_next_message]
    rw [if_neg hne]
    simp only [assemble_frame, hrv, hpl]
  · intro recs t rest hrne hok hv hl
    have hvn := is_variable_tag_none hv
    cases hfr : flatRecs v recs ++ t :: rest with
    | nil => exact absurd hfr (by simp)
    | cons u s0 =>
      have hu : u ≠ cProtocol.Eof := by
        cases recs with
        | nil => exact absurd rfl hrne
        | cons r rs => exact flatRecs_head_ne_eof v r rs hfr.symm
      obtain ⟨E, D, hrv⟩ :=
        read_vars_through_records v recs hok t rest hvn [] [] u s0 hfr.symm
      have hpl := parse_logtype_bad_tag hl rest
      simp only [generic_decode_next_message]
      rw [if_neg hu]
      simp only [assemble_frame, hrv, hpl]
  · intro recs lrec tt rest hok hlok hts
    have htsc := parse_timestamp_bad_tag hts rest
    cases lrec with
    | u8 lb L =>
      simp only [LogRec.bytes, List.cons_append, List.append_assoc]
      have hvn : is_variable_tag v cProtocol.LogtypeStrLenUByte = none :=
        is_variable_tag_logtype v _ (Or.inl rfl)
      have hpl : parse_logtype cProtocol.LogtypeStrLenUByte
          (lb :: (L ++ tt :: rest)) = .ok (L, tt :: rest) :=
        parse_logtype_rec_u8 lb L (tt :: rest) hlok
      cases hfr : flatRecs v recs ++
          cProtocol.LogtypeStrLenUByte :: lb :: (L ++ tt :: rest) with
      | nil => exact absurd hfr (by simp)
      | cons u s0 =>
        have hu : u ≠ cProtocol.Eof := by
          cases recs with
          | nil =>
            simp only [flatRecs, List.nil_append] at hfr
            injection hfr with h1 h2
            subst h1
            decide
          | cons r rs => exact flatRecs_head_ne_eof v r rs hfr.symm
        obtain ⟨E, D, hrv⟩ := read_vars_through_records v recs hok
          cProtocol.LogtypeStrLenUByte (lb :: (L ++ tt :: rest)) hvn [] [] u s0
          hfr.symm
        simp only [generic_decode_next_message]
        rw [if_neg hu]
        simp only [assemble_frame, hrv, hpl, htsc]
    | u16 l0 l1 L =>
      simp only [LogRec.bytes, List.cons_append, List.append_assoc]
      have hvn : is_variable_tag v cProtocol.LogtypeStrLenUShort = none :=
        is_variable_tag_logtype v _ (Or.inr (Or.inl rfl))
      have hpl : parse_logtype cProtocol.LogtypeStrLenUShort
          (l0 :: l1 :: (L ++ tt :: rest)) = .ok (L, tt :: rest) :=
        parse_logtype_rec_u16 l0 l1 L (tt :: rest) hlok
      cases hfr : flatRecs v recs ++
          cProtocol.LogtypeStrLenUShort :: l0 :: l1 :: (L ++ tt :: rest) with
      | nil => exact absurd hfr (by simp)
      | cons u s0 =>
        have hu : u ≠ cProtocol.Eof := by
          cases recs with
          | nil =>
            simp only [flatRecs, List.nil_append] at hfr
            injection hfr with h1 h2
            subst h1
            decide
          | cons r rs => exact flatRecs_head_ne_eof v r rs hfr.symm
        obtain ⟨E, D, hrv⟩ := read_vars_through_records v recs hok
          cProtocol.LogtypeStrLenUShort (l0 :: l1 :: (L ++ tt :: rest)) hvn [] []
          u s0 hfr.symm
        simp only [generic_decode_next_message]
        rw [if_neg hu]
        simp only [assemble_frame, hrv, hpl, htsc]
    | i32 l0 l1 l2 l3 L =>
      simp only [LogRec.bytes, List.cons_append, List.append_assoc]
      have hvn : is_variable_tag v cProtocol.LogtypeStrLenInt = none :=
        is_variable_tag_logtype v _ (Or.inr (Or.inr rfl))
      have hpl : parse_logtype cProtocol.LogtypeStrLenInt
          (l0 :: l1 :: l2 :: l3 :: (L ++ tt :: rest)) = .ok (L, tt :: rest) :=
        parse_logtype_rec_i32 l0 l1 l2 l3 L (tt :: rest) hlok.1 hlok.2
      cases hfr : flatRecs v recs ++
          cProtocol.LogtypeStrLenInt :: l0 :: l1 :: l2 :: l3 :: (L ++ tt :: rest) with
      | nil => exact absurd hfr (by simp)
      | cons u s0 =>
        have hu : u ≠ cProtocol.Eof := by
          cases recs with
          | nil =>
            simp only [flatRecs, List.nil_append] at hfr
            injection hfr with h1 h2
            subst h1
            decide
          | cons r rs => exact flatRecs_head_ne_eof v r rs hfr.symm
        obtain ⟨E, D, hrv⟩ := read_vars_through_records v recs hok
          cProtocol.LogtypeStrLenInt (l0 :: l1 :: l2 :: l3 :: (L ++ tt :: rest))
          hvn [] [] u s0 hfr.symm
        simp only [generic_decode_next_message]
        rw [if_neg hu]
        simp only [assemble_frame, hrv, hpl, htsc]

/-- Witness for C9: one concrete frame per position, all with offending tag
FF in the four-byte variant: as the first byte; after one well-formed
dictionary-variable record; and at the timestamp position after an empty
logtype record. -/
theorem C9_corrupted_wrong_role_tag_witness :
    generic_decode_next_message Variant.four (fun z => []) (fun z => [])
        ((0xFF : Byte) :: []) = (.Corrupted_IR, none, none) ∧
    generic_decode_next_message Variant.four (fun z => []) (fun z => [])
        (flatRecs Variant.four [VarRec.dictU8 0 []] ++ (0xFF : Byte) :: []) =
      (.Corrupted_IR, none, none) ∧
    generic_decode_next_message Variant.four (fun z => []) (fun z => [])
        (flatRecs Variant.four [] ++ (LogRec.u8 0 []).bytes ++ (0xFF : Byte) :: []) =
      (.Corrupted_IR, none, none) :=
  ⟨(C9_corrupted_wrong_role_tag Variant.four (fun z => []) (fun z => [])).1 0xFF []
      (by decide) (by decide) (by decide),
   (C9_corrupted_wrong_role_tag Variant.four (fun z => []) (fun z => [])).2.1
      [VarRec.dictU8 0 []] 0xFF [] (by decide) (by decide) (by decide) (by decide),
   (C9_corrupted_wrong_role_tag Variant.four (fun z => []) (fun z => [])).2.2
      [] (LogRec.u8 0 []) 0xFF [] (by decide) (by decide) (by decide)⟩

end IrStream
